import Mathlib

/-!
Verification of the Piper-Hub TTS orchestration layer.

Shallow embedding of the text-normalization, chunking, synthesis-retry,
audio-assembly and capability-probing logic of
`tools/chatterbox_server.py` and `tools/qwen3_tts_server.py`,
with proofs of the spec's testable properties.

Text is modelled as `List Char`.  Python's `\s` / `str.strip()` whitespace
is modelled by the ASCII whitespace characters (space, tab, newline,
carriage return, vertical tab, form feed), which are the ones the
chunking and normalization logic manipulates.
-/

namespace Piper

/-- Whitespace, as matched by Python's `\s` and stripped by `str.strip()`
(restricted to the ASCII range). -/
def isWs (c : Char) : Bool :=
  c == ' ' || c == '\t' || c == '\n' || c == '\r' ||
  c == Char.ofNat 0x0B || c == Char.ofNat 0x0C

/-- The non-whitespace content of a string, in order. -/
def nonWs (s : List Char) : List Char := s.filter (fun c => !isWs c)

/-- Drop trailing whitespace (the right half of Python `str.strip()`). -/
def dropTrailingWs : List Char → List Char
  | [] => []
  | c :: rest =>
    let r := dropTrailingWs rest
    if r = [] ∧ isWs c then [] else c :: r

/-- Python `str.strip()`: drop leading and trailing whitespace. -/
def strip (s : List Char) : List Char := dropTrailingWs (s.dropWhile isWs)

/-! ## The regex splits of `_split_to_chunks`

`_sentence_split_re = (?<=[\.\!\?])\s+|\n+` and the clause split
`(?<=[,;:])\s+` are `re.split` calls whose separators are maximal
whitespace runs, found left to right.  `reSplitGo` is the corresponding
scanner: in `text` mode it accumulates the current part (in reverse);
a separator starts where the preceding character is a trigger and the
current one is whitespace (the `(?<=…)\s+` alternative), or — for the
sentence split only — where the current character is a newline
(the `\n+` alternative, which consumes newlines only). -/

inductive SMode
  | text
  | sepWs
  | sepNl
deriving DecidableEq

def reSplitGo (trig : Char → Bool) (nl : Bool) (mode : SMode) (acc : List Char) :
    List Char → List (List Char)
  | [] =>
    match mode with
    | SMode.text => [acc.reverse]
    | _ => [[]]
  | c :: rest =>
    match mode with
    | SMode.text =>
      if (match acc with | p :: _ => trig p | [] => false) && isWs c then
        acc.reverse :: reSplitGo trig nl SMode.sepWs [] rest
      else if nl && c == '\n' then
        acc.reverse :: reSplitGo trig nl SMode.sepNl [] rest
      else
        reSplitGo trig nl SMode.text (c :: acc) rest
    | SMode.sepWs =>
      if isWs c then reSplitGo trig nl SMode.sepWs [] rest
      else reSplitGo trig nl SMode.text [c] rest
    | SMode.sepNl =>
      if c == '\n' then reSplitGo trig nl SMode.sepNl [] rest
      else reSplitGo trig nl SMode.text [c] rest

def reSplit (trig : Char → Bool) (nl : Bool) (s : List Char) : List (List Char) :=
  reSplitGo trig nl SMode.text [] s

/-- Sentence-final punctuation of `_sentence_split_re`. -/
def sentenceTrig (c : Char) : Bool := c == '.' || c == '!' || c == '?'

/-- Clause punctuation of the secondary split `(?<=[,;:])\s+`. -/
def clauseTrig (c : Char) : Bool := c == ',' || c == ';' || c == ':'

/-- `_sentence_split_re.split(text)`. -/
def sentenceSplit (s : List Char) : List (List Char) := reSplit sentenceTrig true s

/-- `re.split(r"(?<=[,;:])\s+", p)`. -/
def clauseSplit (s : List Char) : List (List Char) := reSplit clauseTrig false s

/-- Python `str.split()` with no argument: split on whitespace runs,
dropping empty pieces. -/
def wordSplitGo (acc : List Char) : List Char → List (List Char)
  | [] => if acc = [] then [] else [acc.reverse]
  | c :: rest =>
    if isWs c then
      if acc = [] then wordSplitGo [] rest else acc.reverse :: wordSplitGo [] rest
    else
      wordSplitGo (c :: acc) rest

def wordSplit (s : List Char) : List (List Char) := wordSplitGo [] s

/-! ## `_split_to_chunks` -/

/-- The `push_buf` closure: append the stripped buffer to `chunks` when
it is non-empty. -/
def pushBuf (chunks : List (List Char)) (buf : List Char) : List (List Char) :=
  let b := strip buf
  if b = [] then chunks else chunks ++ [b]

/-- The word-wrap inner loop (`for w in words`) of `_split_to_chunks`,
acting on `(chunks, line)`; returns the state after the loop body
(the trailing `push_buf(line)` is done by the caller). -/
def wrapWords (L : Nat) (chunks : List (List Char)) (line : List Char) :
    List (List Char) → List (List Char) × List Char
  | [] => (chunks, line)
  | w :: ws =>
    if line.length + w.length + 1 ≤ L then
      wrapWords L chunks (strip (line ++ ' ' :: w)) ws
    else
      wrapWords L (pushBuf chunks line) w ws

/-- The `for sp in subparts` loop of `_split_to_chunks`, acting on the
`(chunks, buf)` state. -/
def clauseLoop (L : Nat) (chunks : List (List Char)) (buf : List Char) :
    List (List Char) → List (List Char) × List Char
  | [] => (chunks, buf)
  | sp0 :: sps =>
    let sp := strip sp0
    if sp = [] then clauseLoop L chunks buf sps
    else if sp.length ≤ L then
      if buf.length + sp.length + 1 ≤ L then
        clauseLoop L chunks (strip (buf ++ ' ' :: sp)) sps
      else
        clauseLoop L (pushBuf chunks buf) sp sps
    else
      let st := wrapWords L chunks [] (wordSplit sp)
      clauseLoop L (pushBuf st.1 st.2) buf sps

/-- The `for p in parts` loop of `_split_to_chunks`.  A part longer than
`L` is clause-split and handled by `clauseLoop`; otherwise it is packed
greedily into `buf`.  Note that `buf = buf + " " + p` in the code does
not strip. -/
def partLoop (L : Nat) (chunks : List (List Char)) (buf : List Char) :
    List (List Char) → List (List Char) × List Char
  | [] => (chunks, buf)
  | p :: ps =>
    if L < p.length then
      let st := clauseLoop L chunks buf (clauseSplit p)
      partLoop L st.1 st.2 ps
    else if buf = [] then
      partLoop L chunks p ps
    else if buf.length + p.length + 1 ≤ L then
      partLoop L chunks (buf ++ ' ' :: p) ps
    else
      partLoop L (pushBuf chunks buf) p ps

/-- The `parts` list computed at the head of `_split_to_chunks`:
sentence-split, keep the non-empty pieces stripped, and fall back to
`[text.strip()]` when nothing remains. -/
def chunkParts (text : List Char) : List (List Char) :=
  let parts0 := ((sentenceSplit text).filter
    (fun p => !p.isEmpty && !(strip p).isEmpty)).map strip
  if parts0 = [] then [strip text] else parts0

/-- `_split_to_chunks(text, max_chars)` of `chatterbox_server.py`. -/
def split_to_chunks (text : List Char) (L : Nat) : List (List Char) :=
  if text = [] then []
  else
    let st := partLoop L [] [] (chunkParts text)
    pushBuf st.1 st.2

/-! ## `_sanitize_text`

`_sanitize_text` applies, in order: `unicodedata.normalize("NFKC", t)`,
the smart-punctuation replacements, removal of the zero-width characters
`U+200B`–`U+200D` and `U+FEFF`, collapse of `[ \t]+` runs to a single
space, collapse of `\n{3,}` runs to two newlines, and `strip()`.

NFKC is the Python standard library's Unicode normalization; it is
modelled here by a character-wise compatibility-decomposition table
followed by canonical composition of adjacent pairs, restricted to the
characters this development reasons about (the punctuation the code
replaces, and the combining sequence `a` + `U+0300` ↔ `U+00E0`); all
other characters are left unchanged, matching NFKC's action on them. -/

/-- Compatibility decomposition (character-wise NFKC table, restricted):
`U+2026 HORIZONTAL ELLIPSIS` decomposes to `...`; the other characters
appearing in this development are NFKC-stable. -/
def nfkcDecompChar (c : Char) : List Char :=
  if c = Char.ofNat 0x2026 then ['.', '.', '.'] else [c]

/-- Canonical composition of an adjacent pair (restricted table):
`a` followed by `U+0300 COMBINING GRAVE ACCENT` composes to
`U+00E0 LATIN SMALL LETTER A WITH GRAVE`. -/
def composePair (x y : Char) : Option Char :=
  if x = 'a' ∧ y = Char.ofNat 0x300 then some (Char.ofNat 0xE0) else none

/-- Canonical composition pass: compose adjacent composable pairs.
Composed characters (`U+00E0`) compose no further with neighbours under
the table, so the right-to-left fold below agrees with the left-to-right
scan of the normalization algorithm. -/
def nfkcCompose : List Char → List Char
  | [] => []
  | x :: rest =>
    match nfkcCompose rest with
    | [] => [x]
    | y :: r' =>
      match composePair x y with
      | some z => z :: r'
      | none => x :: y :: r'

/-- `unicodedata.normalize("NFKC", t)`, modelled as decomposition
followed by canonical composition. -/
def nfkc (s : List Char) : List Char := nfkcCompose (s.flatMap nfkcDecompChar)

/-- The smart-punctuation replacement chain of `_sanitize_text`:
curly quotes to ASCII quotes, dashes to `-`, ellipsis to `...`.
All patterns are single characters, so the chained `str.replace`
calls act character-wise. -/
def replChar (c : Char) : List Char :=
  if c = Char.ofNat 0x201C ∨ c = Char.ofNat 0x201D then ['"']
  else if c = Char.ofNat 0x2018 ∨ c = Char.ofNat 0x2019 then [Char.ofNat 0x27]
  else if c = Char.ofNat 0x2014 ∨ c = Char.ofNat 0x2013 then ['-']
  else if c = Char.ofNat 0x2026 then ['.', '.', '.']
  else [c]

def replSmart (s : List Char) : List Char := s.flatMap replChar

/-- The zero-width characters removed by the regex substitution
over the class `U+200B`-`U+200D`, `U+FEFF`. -/
def isZeroWidth (c : Char) : Bool :=
  (0x200B ≤ c.toNat && c.toNat ≤ 0x200D) || c.toNat == 0xFEFF

def removeZeroWidth (s : List Char) : List Char := s.filter (fun c => !isZeroWidth c)

/-- Space or tab, the class of `re.sub(r"[ \t]+", " ", t)`. -/
def isSpTab (c : Char) : Bool := c == ' ' || c == '\t'

/-- `re.sub(r"[ \t]+", " ", t)`: every run of spaces/tabs becomes one
space.  A space/tab whose processed tail already begins with the space
of a collapsed run is absorbed into that run. -/
def collapseSpaces : List Char → List Char
  | [] => []
  | c :: rest =>
    if isSpTab c then
      match collapseSpaces rest with
      | d :: r' => if d = ' ' then d :: r' else ' ' :: d :: r'
      | [] => [' ']
    else c :: collapseSpaces rest

def isNl (c : Char) : Bool := c == '\n'

/-- The replacement for a completed newline run of length `n` under
`re.sub(r"\n{3,}", "\n\n", t)`: three or more become two, shorter runs
are kept. -/
def emitNl (n : Nat) : List Char :=
  if 3 ≤ n then ['\n', '\n'] else List.replicate n '\n'

/-- `re.sub(r"\n{3,}", "\n\n", t)`, scanning with the length `n` of the
newline run currently open. -/
def collapseNlGo (n : Nat) : List Char → List Char
  | [] => emitNl n
  | c :: rest =>
    if c = '\n' then collapseNlGo (n + 1) rest
    else emitNl n ++ c :: collapseNlGo 0 rest

def collapseNewlines (s : List Char) : List Char := collapseNlGo 0 s

/-- `_sanitize_text(text)` of `chatterbox_server.py`. -/
def sanitize_text (s : List Char) : List Char :=
  strip (collapseNewlines (collapseSpaces (removeZeroWidth (replSmart (nfkc s)))))

/-! ## `_sanitize_wav` and the `/audio/speech` pipeline

Float32 samples are modelled as rationals plus the NaN/Inf anomalies
(`np.nan_to_num` and `np.clip` act on values, not on rounding, so no
floating-point rounding enters the properties proved here).  Backend
waveforms of rank 1 and 2 are modelled; rank ≥ 3 outputs are squeezed
and flattened whole by the code, behaving like rank 1 here. -/

inductive FSample
  | val (q : ℚ)
  | nan
  | pinf
  | ninf
deriving DecidableEq

/-- A backend waveform: 1-dimensional, or 2-dimensional with rectangular
non-empty rows (the shapes `(T,)`, `(1,T)`, `(T,1)`, `(B,T)` handled by
`_sanitize_wav`). -/
inductive NdArray
  | d1 (xs : List FSample)
  | d2 (rows : List (List FSample))
deriving DecidableEq

/-- `np.nan_to_num(wav, nan=0.0, posinf=0.0, neginf=0.0)` on one sample. -/
def nanToNum : FSample → ℚ
  | .val q => q
  | _ => 0

/-- `np.clip(·, -1.0, 1.0)` on one sample. -/
def clip1 (q : ℚ) : ℚ := max (-1) (min 1 q)

/-- The shape handling of `_sanitize_wav` followed by `reshape(-1)`:
a rank-2 array with a size-1 axis is squeezed (keeping all samples),
any other rank-2 array keeps its first row; rank-1 is unchanged. -/
def flattenWav : NdArray → List FSample
  | .d1 xs => xs
  | .d2 rows =>
    if rows.length = 1 ∨ (rows.headD []).length = 1 then rows.flatten
    else rows.headD []

/-- `_sanitize_wav(wav)` of `chatterbox_server.py`: flatten per shape,
replace NaN/Inf by `0`, clamp to `[-1, 1]`, and raise `ValueError` when
fewer than 8 samples remain. -/
def sanitize_wav (w : NdArray) : Except String (List ℚ) :=
  if ((flattenWav w).map (fun x => clip1 (nanToNum x))).length < 8 then
    Except.error "Generated waveform too short/empty"
  else Except.ok ((flattenWav w).map (fun x => clip1 (nanToNum x)))

/-! ## `_is_cuda_related_error` -/

def isPrefixB : List Char → List Char → Bool
  | [], _ => true
  | _ :: _, [] => false
  | a :: as, b :: bs => a == b && isPrefixB as bs

/-- Contiguous-substring test. -/
def containsSubstring (needle : List Char) : List Char → Bool
  | [] => isPrefixB needle []
  | c :: rest => isPrefixB needle (c :: rest) || containsSubstring needle rest

def lowerStr (s : List Char) : List Char := s.map Char.toLower

/-- The device-corruption indicator keywords of `_is_cuda_related_error`. -/
def cudaKeywords : List (List Char) :=
  ["cuda".toList, "cublas".toList, "cudnn".toList, "device-side assert".toList,
   "out of memory".toList, "oom".toList, "illegal memory access".toList,
   "misaligned address".toList]

/-- `_is_cuda_related_error(e)`: the exception's combined
`repr(e) + " " + str(e)` text, lower-cased, contains one of the
device-corruption keywords.  `msg` models that combined text. -/
def is_cuda_related_error (msg : List Char) : Bool :=
  cudaKeywords.any (fun k => containsSubstring k (lowerStr msg))

/-! ## The `/audio/speech` handler -/

/-- Observable backend interactions of one `/audio/speech` request. -/
inductive Event
  | loadModel
  | generate (chunk attempt : Nat)
  | cudaRecover
deriving DecidableEq

/-- The backend's behaviour during one request.  `generate i a` is the
outcome of `_model.generate` on chunk `i`, attempt `a` (`0` first try,
`1` the post-recovery retry): a waveform, or the text of the raised
exception. -/
structure ChatterboxOracle where
  modelLoaded : Bool
  loadResult : Except String Unit
  sr : Nat
  generate : Nat → Nat → Except String NdArray

/-- The configuration knobs of `chatterbox_server.py` relevant here. -/
structure ChatterboxCfg where
  chunkChars : Nat
  gapMs : Nat
  retryOnCudaError : Bool
  promptPath : Option String
  promptExists : Bool

inductive SpeechResult
  | ok (wavFull : List ℚ) (sr : Nat)
  | err (status : Nat) (msg : String)
deriving DecidableEq

/-- One chunk's generation with the optional CUDA-recovery retry:
`gen_once(ch)` and, when it raises a device-related error and retry is
enabled, `_cuda_recover()` followed by exactly one more `gen_once(ch)`. -/
def genChunk (o : ChatterboxOracle) (retry : Bool) (i : Nat) :
    Except String NdArray × List Event :=
  match o.generate i 0 with
  | .ok w => (.ok w, [.generate i 0])
  | .error e1 =>
    if retry && is_cuda_related_error e1.toList then
      (o.generate i 1, [.generate i 0, .cudaRecover, .generate i 1])
    else
      (.error e1, [.generate i 0])

/-- The `for i, ch in enumerate(chunks)` loop: generate, sanitize, and
append each segment to `wav_parts`, with a silence of `gap` zeros after
every chunk but the last (`k` is `len(chunks)`, `i` the current index).
Any raised error aborts the whole loop. -/
def chunkLoop (o : ChatterboxOracle) (retry : Bool) (gap k : Nat) :
    Nat → List (List Char) → Except String (List (List ℚ)) × List Event
  | _, [] => (.ok [], [])
  | i, _ :: rest =>
    let g := genChunk o retry i
    match g.1 with
    | .error e => (.error e, g.2)
    | .ok w =>
      match sanitize_wav w with
      | .error e => (.error e, g.2)
      | .ok seg =>
        let r := chunkLoop o retry gap k (i + 1) rest
        match r.1 with
        | .error e => (.error e, g.2 ++ r.2)
        | .ok parts =>
          if 0 < gap ∧ i ≠ k - 1 then
            (.ok (seg :: List.replicate gap 0 :: parts), g.2 ++ r.2)
          else
            (.ok (seg :: parts), g.2 ++ r.2)

/-- The `/audio/speech` handler `speech(req)` of `chatterbox_server.py`:
reject blank raw input (400), load the model on first use, reject a
missing prompt file (400), sanitize and chunk the text, reject when no
chunks remain (400), then synthesize chunk by chunk and concatenate
`wav_parts`.  Any exception yields a 500 response.  The inter-chunk gap
`int(sr * (GAP_MS / 1000.0))` is modelled as `sr * gapMs / 1000` in
natural-number arithmetic.  The returned `ok` carries the concatenated
waveform handed to the WAV encoder and the sample rate. -/
def speech (cfg : ChatterboxCfg) (o : ChatterboxOracle) (input : List Char) :
    SpeechResult × List Event :=
  let textRaw := strip input
  if textRaw = [] then (.err 400 "Missing input text", [])
  else
    let levs : List Event := if o.modelLoaded then [] else [Event.loadModel]
    match (if o.modelLoaded then Except.ok () else o.loadResult) with
    | .error e => (.err 500 e, levs)
    | .ok _ =>
      if cfg.promptPath.isSome ∧ cfg.promptExists = false then
        (.err 400 "audio_prompt_path not found", levs)
      else
        let text := sanitize_text textRaw
        let chunks := split_to_chunks text cfg.chunkChars
        if chunks = [] then (.err 400 "Empty input after sanitization", levs)
        else
          let gap := o.sr * cfg.gapMs / 1000
          let r := chunkLoop o cfg.retryOnCudaError gap chunks.length 0 chunks
          match r.1 with
          | .error e => (.err 500 e, levs ++ r.2)
          | .ok parts => (.ok parts.flatten o.sr, levs ++ r.2)

/-! ## `qwen3_tts_server.py`: capability state, probe, dispatcher

The process-wide capability state is `DESIGN_SUPPORTED`
(`None` = unknown, `True`/`False` known) plus
`DESIGN_DISABLED_REASON`.  The backend (model loading and the
`generate_voice_design` call) is an external collaborator, modelled by
an outcome oracle. -/

structure QwenState where
  designSupported : Option Bool
  designReason : Option String
deriving DecidableEq

/-- `_disable_design(reason)`. -/
def disableDesign (_st : QwenState) (reason : String) : QwenState :=
  { designSupported := some false, designReason := some reason }

/-- How one actual probe attempt of the backend turns out:
the design model fails to load; `call_generate_voice_design` returns
`None` (introspection could not map the arguments); it raises a
`ValueError` or some other exception; or it succeeds. -/
inductive ProbeOutcome
  | loadFails (msg : String)
  | callReturnsNone
  | callRaisesValueError (msg : String)
  | callRaisesOther (excName msg : String)
  | callSucceeds
deriving DecidableEq

/-- `probe_design_support()` of `qwen3_tts_server.py`, as a transition
on the capability state.  Returns the probe's boolean answer, the new
state, and the number of backend operations invoked (design-model load
attempts plus `generate_voice_design` attempts). -/
def probe_design_support (st : QwenState) (o : ProbeOutcome) :
    Bool × QwenState × Nat :=
  match st.designSupported with
  | some b => (b, st, 0)
  | none =>
    match o with
    | .loadFails msg =>
      (false, disableDesign st ("design model failed to load: " ++ msg), 1)
    | .callReturnsNone =>
      (false, disableDesign st
        "generate_voice_design signature unsupported by introspection", 1)
    | .callRaisesValueError msg =>
      (false, disableDesign st msg, 2)
    | .callRaisesOther excName msg =>
      (false, disableDesign st (excName ++ ": " ++ msg), 2)
    | .callSucceeds =>
      (true, { designSupported := some true, designReason := none }, 2)

/-! ### The `/speak` handler (design-relevant control flow) -/

/-- Outcome of the `call_generate_voice_design` attempt made inside
`/speak` after a successful probe. -/
inductive DesignCallResult
  | retNone
  | success
  | raisesValueError (msg : String)
  | raisesOther (msg : String)
deriving DecidableEq

/-- Backend behaviour for one `/speak` request. -/
structure QwenOracle where
  probeOutcome : ProbeOutcome
  designCall : DesignCallResult
  cloneResult : Except String Unit
  ttsResult : Except String Unit

structure QwenCfg where
  defaultRefAudio : String

structure SpeakReq where
  text : String
  voice : String
  language : String
  instruct : String
  refAudio : Option String
  customDescription : Option String

inductive SpeakResult
  | ok
  | err (status : Nat) (msg : String)
deriving DecidableEq

def stripStr (s : String) : String := String.mk (strip s.toList)

def lowerString (s : String) : String := String.mk (lowerStr s.toList)

/-- The explicit backend-unsupported signal tested by `/speak` and the
probe: `"does not support generate_voice_design" in str(e)`. -/
def unsupportedSignal (msg : String) : Bool :=
  containsSubstring "does not support generate_voice_design".toList msg.toList

/-- The fallback TTS path of `/speak` (CustomVoice / generate). -/
def speakFallback (o : QwenOracle) (st : QwenState) : SpeakResult × QwenState :=
  match o.ttsResult with
  | .error e => (.err 500 e, st)
  | .ok _ => (.ok, st)

/-- The `/speak` handler of `qwen3_tts_server.py`, restricted to its
effect on the capability state and its response class.  Blank text is
rejected (400); a non-empty reference audio (or the imitation-mode
default) takes the clone path, which never touches the design state;
otherwise, for voice `"custom"` with a description, the design path
probes, then calls `generate_voice_design`: a `None` return or an
explicit unsupported `ValueError` disables design and falls back, any
other exception yields a 500. -/
def speak (cfg : QwenCfg) (o : QwenOracle) (st : QwenState) (req : SpeakReq) :
    SpeakResult × QwenState :=
  let text := stripStr req.text
  if text = "" then (.err 400 "Empty text", st)
  else
    let rawVoice := lowerString (stripStr req.voice)
    let refAudio0 := stripStr (req.refAudio.getD "")
    let customDesc := stripStr (req.customDescription.getD "")
    let refAudio :=
      if refAudio0 = "" ∧ rawVoice = "imitation" ∧ cfg.defaultRefAudio ≠ "" then
        cfg.defaultRefAudio
      else refAudio0
    if refAudio ≠ "" then
      match o.cloneResult with
      | .error e => (.err 500 e, st)
      | .ok _ => (.ok, st)
    else if rawVoice = "custom" ∧ customDesc ≠ "" then
      let pr := probe_design_support st o.probeOutcome
      if pr.1 then
        match o.designCall with
        | .success => (.ok, pr.2.1)
        | .retNone =>
          speakFallback o (disableDesign pr.2.1
            "generate_voice_design signature unsupported by introspection")
        | .raisesValueError msg =>
          if unsupportedSignal msg then
            speakFallback o (disableDesign pr.2.1 msg)
          else
            (.err 500 msg, pr.2.1)
        | .raisesOther msg => (.err 500 msg, pr.2.1)
      else speakFallback o pr.2.1
    else speakFallback o st

/-! ### `call_generate_voice_design` argument dispatch -/

/-- `inspect.Parameter` kinds. -/
inductive PKind
  | positionalOnly
  | positionalOrKeyword
  | varPositional
  | keywordOnly
  | varKeyword
deriving DecidableEq

structure PyParam where
  name : String
  hasDefault : Bool
  kind : PKind
deriving DecidableEq

/-- The required parameters of a signature, as computed by
`call_generate_voice_design`: no default, and positional-or-keyword or
keyword-only. -/
def requiredParams (sig : List PyParam) : List String :=
  (sig.filter (fun p =>
    !p.hasDefault &&
    (p.kind == PKind.positionalOrKeyword || p.kind == PKind.keywordOnly))).map
    (fun p => p.name)

def paramNames (sig : List PyParam) : List String :=
  sig.map (fun p => p.name)

/-- The first prompt-shaped parameter alias accepted by the signature,
in the order tried by the code. -/
def promptAlias (sig : List PyParam) : Option String :=
  (["prompt", "voice_design_prompt", "design_prompt"].filter
    (fun p => p ∈ paramNames sig)).head?

/-- The keys of the keyword-argument mapping `call_generate_voice_design`
builds from the request fields (`text`, `language`, the base
description, the emotion instruct under its two aliases) and, when the
signature accepts a prompt-shaped parameter, the cached
`VoiceDesignPrompt`. -/
def builtKwargKeys (sig : List PyParam) : List String :=
  (["text", "language", "description", "instruct", "emotion"].filter
    (fun p => p ∈ paramNames sig)) ++
  (match promptAlias sig with
   | some p => [p]
   | none => [])

/-- The introspected dispatch environment of
`call_generate_voice_design`: whether the model has a callable
`generate_voice_design`, its cached signature (when introspection
found one), and whether a `VoiceDesignPrompt` can be created/cached for
the base description (the creator method exists and succeeds). -/
structure GVDEnv where
  hasMethod : Bool
  sig : Option (List PyParam)
  promptCreatable : Bool

/-- `call_generate_voice_design(...)` of `qwen3_tts_server.py`,
abstracted to which keyword arguments reach the backend: `some keys`
means `model.generate_voice_design(**kwargs)` is invoked with exactly
those keys; `none` means the function returns `None` without invoking
it. -/
def call_generate_voice_design (env : GVDEnv) : Option (List String) :=
  if !env.hasMethod then none
  else
    match env.sig with
    | none => none
    | some sig =>
      let base := ["text", "language", "description", "instruct", "emotion"].filter
        (fun p => p ∈ paramNames sig)
      match promptAlias sig with
      | some p =>
        if env.promptCreatable then
          let kwargs := base ++ [p]
          if (requiredParams sig).any (fun r => !(r ∈ kwargs : Bool)) then none
          else some kwargs
        else none
      | none =>
        if (requiredParams sig).any (fun r => !(r ∈ base : Bool)) then none
        else some base

/-! # Theorems -/

/-! ## C5: capability state is monotonic under probing -/

/-- C5: once `probe_design_support` has recorded
`DESIGN_SUPPORTED = False`, every later call returns `False`, changes
nothing, and invokes no backend operation. -/
theorem C5_probe_false_is_permanent (st : QwenState) (o : ProbeOutcome)
    (h : st.designSupported = some false) :
    probe_design_support st o = (false, st, 0) := by
  simp [probe_design_support, h]

/-- Witness for C5 at a concrete disabled state and a probe outcome that
would have succeeded. -/
theorem C5_probe_false_is_permanent_witness :
    probe_design_support ⟨some false, some "reason"⟩ ProbeOutcome.callSucceeds
      = (false, ⟨some false, some "reason"⟩, 0) :=
  C5_probe_false_is_permanent ⟨some false, some "reason"⟩ ProbeOutcome.callSucceeds rfl

/-! ## C2: transitions of `DESIGN_SUPPORTED`

The claim is false as stated: after a successful probe has set
`DESIGN_SUPPORTED = True`, the `/speak` handler can still reach
`_disable_design` — the post-probe `call_generate_voice_design` may
return `None` (introspection fails to map arguments for a new
description) or raise the explicit unsupported `ValueError` — flipping
the state from `True` to `False`. -/

/-- C2 counterexample: a `/speak` request on a state with
`DESIGN_SUPPORTED = True` whose design call raises the explicit
backend-unsupported `ValueError` leaves `DESIGN_SUPPORTED = False`. -/
theorem C2_counterexample :
    ((speak ⟨""⟩
      ⟨ProbeOutcome.callSucceeds,
       DesignCallResult.raisesValueError
         "Model Qwen3-TTS-12Hz-0.6B-Base does not support generate_voice_design.",
       Except.ok (), Except.ok ()⟩
      ⟨some true, none⟩
      ⟨"Hello there.", "custom", "english", "Neutral.", none,
       some "a deep calm narrator voice"⟩).2).designSupported = some false := by
  decide

/-- C2 amended: the capability state never leaves `False` once set, and
`probe_design_support` never modifies an already-set state; the `/speak`
handler, however, may transition `True → False` when a later design call
reports unsupported or introspection fails. -/
theorem C2_amended (st : QwenState) (o : ProbeOutcome) (b : Bool)
    (cfg : QwenCfg) (qo : QwenOracle) (req : SpeakReq)
    (hset : st.designSupported = some b) :
    (probe_design_support st o).2.1 = st ∧
    (b = false → (speak cfg qo st req).2 = st) := by
  constructor
  · simp [probe_design_support, hset]
  · intro hb
    subst hb
    obtain ⟨po, dc, cr, tr⟩ := qo
    obtain ⟨ds, dr⟩ := st
    simp only [QwenState.designSupported] at hset
    subst hset
    rcases cr with e | u <;> rcases tr with e2 | u2 <;>
      simp [speak, probe_design_support, speakFallback, disableDesign] <;>
      (repeat' split) <;> rfl

/-- Witness for C2's amended theorem at a concrete disabled state,
request and oracle. -/
theorem C2_amended_witness :
    (probe_design_support ⟨some false, some "r"⟩ ProbeOutcome.callSucceeds).2.1
        = ⟨some false, some "r"⟩ ∧
    (speak ⟨""⟩ ⟨ProbeOutcome.callSucceeds, DesignCallResult.success,
        Except.ok (), Except.ok ()⟩ ⟨some false, some "r"⟩
        ⟨"Hi.", "custom", "english", "Neutral.", none, some "desc"⟩).2
      = ⟨some false, some "r"⟩ := by
  have h := C2_amended ⟨some false, some "r"⟩ ProbeOutcome.callSucceeds false ⟨""⟩
    ⟨ProbeOutcome.callSucceeds, DesignCallResult.success, Except.ok (), Except.ok ()⟩
    ⟨"Hi.", "custom", "english", "Neutral.", none, some "desc"⟩ rfl
  exact ⟨h.1, h.2 rfl⟩

/-! ## C7: the dispatcher skips unsatisfiable calls -/

/-- C7: when the introspected `generate_voice_design` signature declares
a required parameter (no default, positional-or-keyword or keyword-only)
that is absent from the keyword-argument mapping the dispatcher can
build, `call_generate_voice_design` returns `None` without invoking the
backend operation. -/
theorem C7_unsatisfiable_call_skipped (env : GVDEnv) (sig : List PyParam)
    (hsig : env.sig = some sig) (r : String)
    (hreq : r ∈ requiredParams sig) (habs : r ∉ builtKwargKeys sig) :
    call_generate_voice_design env = none := by
  unfold call_generate_voice_design
  rcases hm : env.hasMethod with _ | _
  · simp
  · simp only [hm, Bool.not_true, Bool.false_eq_true, if_false, hsig]
    unfold builtKwargKeys at habs
    rcases hp : promptAlias sig with _ | p
    · rw [hp] at habs
      simp only [List.append_nil] at habs
      simp only [hp]
      simp at habs ⊢
      exact ⟨r, hreq, by tauto⟩
    · rw [hp] at habs
      rcases hc : env.promptCreatable with _ | _
      · simp [hp, hc]
      · simp only [hp, hc]
        simp at habs ⊢
        exact ⟨r, hreq, by tauto⟩

/-- Witness for C7: a signature requiring a `speaker` parameter the
dispatcher cannot supply is skipped. -/
theorem C7_unsatisfiable_call_skipped_witness :
    call_generate_voice_design
        ⟨true, some [⟨"text", false, PKind.positionalOrKeyword⟩,
                     ⟨"speaker", false, PKind.positionalOrKeyword⟩], true⟩
      = none :=
  C7_unsatisfiable_call_skipped _
    [⟨"text", false, PKind.positionalOrKeyword⟩,
     ⟨"speaker", false, PKind.positionalOrKeyword⟩]
    rfl "speaker" (by decide) (by decide)

/-! ## Helper lemmas on the `/audio/speech` pipeline -/

theorem sanitize_wav_ok_length {w : NdArray} {xs : List ℚ}
    (h : sanitize_wav w = Except.ok xs) : 8 ≤ xs.length := by
  unfold sanitize_wav at h
  split at h
  · exact absurd h (by simp)
  · rename_i hlen
    obtain rfl : (flattenWav w).map (fun x => clip1 (nanToNum x)) = xs := by
      simpa using h
    simpa using Nat.le_of_not_lt hlen

theorem sanitize_wav_error_iff (w : NdArray) :
    (∃ e, sanitize_wav w = Except.error e) ↔ (flattenWav w).length < 8 := by
  unfold sanitize_wav
  split
  · rename_i hlen
    simp only [List.length_map] at hlen
    simpa using hlen
  · rename_i hlen
    simp only [List.length_map] at hlen
    constructor
    · rintro ⟨e, he⟩
      exact absurd he (by simp)
    · intro h
      exact absurd h hlen

/-- The sanitized audio segment a given chunk contributes: the outcome
of its (possibly retried) generation passed through `_sanitize_wav`. -/
def chunkSeg (o : ChatterboxOracle) (retry : Bool) (i : Nat) : Option (List ℚ) :=
  match (genChunk o retry i).1 with
  | .error _ => none
  | .ok w =>
    match sanitize_wav w with
    | .error _ => none
    | .ok seg => some seg

/-- Success characterization of the chunk loop: every chunk in range has
a sanitized segment, and the concatenated parts (segments plus the
inter-chunk silences) have exactly `Σ nᵢ + (len − 1) · gap` samples. -/
theorem chunkLoop_ok_spec (o : ChatterboxOracle) (retry : Bool) (gap k : Nat) :
    ∀ (chs : List (List Char)) (i : Nat) (parts : List (List ℚ)) (evs : List Event),
      i + chs.length = k →
      chunkLoop o retry gap k i chs = (Except.ok parts, evs) →
      (∀ j, j < chs.length → ∃ s, chunkSeg o retry (i + j) = some s) ∧
      parts.flatten.length =
        ((List.range' i chs.length).map
          (fun j => ((chunkSeg o retry j).getD []).length)).sum +
        (chs.length - 1) * gap
  | [], i, parts, evs, _, h => by
    simp only [chunkLoop] at h
    obtain ⟨rfl, rfl⟩ : ([] : List (List ℚ)) = parts ∧ ([] : List Event) = evs := by
      simpa using h
    simp
  | ch :: rest, i, parts, evs, hk, h => by
    simp only [chunkLoop] at h
    split at h
    · exact absurd h (by simp)
    · rename_i w hg
      split at h
      · exact absurd h (by simp)
      · rename_i seg hs
        split at h
        · exact absurd h (by simp)
        · rename_i parts' hr
          have hrec : chunkLoop o retry gap k (i + 1) rest =
              (Except.ok parts', (chunkLoop o retry gap k (i + 1) rest).2) := by
            rw [← hr]
          have hk' : (i + 1) + rest.length = k := by
            simp only [List.length_cons] at hk
            omega
          obtain ⟨ih1, ih2⟩ := chunkLoop_ok_spec o retry gap k rest (i + 1) parts' _ hk' hrec
          have hseg : chunkSeg o retry i = some seg := by
            simp only [chunkSeg, hg, hs]
          have hmain : (∀ j < (ch :: rest).length, ∃ s, chunkSeg o retry (i + j) = some s) := by
            intro j hj
            cases j with
            | zero => exact ⟨seg, by simpa using hseg⟩
            | succ j' =>
              obtain ⟨s, hs'⟩ := ih1 j' (by simpa using hj)
              exact ⟨s, by simpa [Nat.add_comm, Nat.add_assoc, Nat.add_left_comm] using hs'⟩
          refine ⟨hmain, ?_⟩
          have hrange : List.range' i (rest.length + 1) =
              i :: List.range' (i + 1) rest.length := by
            simpa using List.range'_succ i rest.length 1
          split at h
          · rename_i hcond
            rw [Prod.mk.injEq] at h
            obtain ⟨h1, _⟩ := h
            obtain rfl : seg :: List.replicate gap 0 :: parts' = parts := by
              simpa using h1
            have hrestne : 1 ≤ rest.length := by
              by_contra hno
              exact hcond.2 (by simp only [List.length_cons] at hk; omega)
            have h1n : rest.length - 1 + 1 = rest.length := by omega
            have h2n : rest.length + 1 - 1 = rest.length := by omega
            have hmul : rest.length * gap = gap + (rest.length - 1) * gap := by
              conv_lhs => rw [← h1n]
              ring
            simp only [List.flatten_cons, List.length_append, List.length_replicate,
              hrange, List.map_cons, List.sum_cons, hseg, Option.getD_some, List.length_cons]
            rw [ih2, h2n, hmul]
            omega
          · rename_i hcond
            rw [Prod.mk.injEq] at h
            obtain ⟨h1, _⟩ := h
            obtain rfl : seg :: parts' = parts := by
              simpa using h1
            rcases Decidable.em (0 < gap) with hgap | hgap
            · have hi : i = k - 1 := by
                by_contra hne
                exact hcond ⟨hgap, hne⟩
              have hrest0 : rest.length = 0 := by
                simp only [List.length_cons] at hk
                omega
              obtain rfl : rest = [] := List.length_eq_zero.mp hrest0
              obtain rfl : parts' = [] := by
                have h0 := hrec
                simp only [chunkLoop] at h0
                rw [Prod.mk.injEq] at h0
                have := h0.1
                simpa using this.symm
              simp [hrange, hseg]
            · have hgap0 : gap = 0 := by omega
              subst hgap0
              simp only [List.flatten_cons, List.length_append, List.length_cons,
                hrange, List.map_cons, List.sum_cons, hseg, Option.getD_some]
              rw [ih2]
              simp


/-- The chunks, gap and chunk loop a `/audio/speech` request runs when it
reaches synthesis. -/
def speechChunks (cfg : ChatterboxCfg) (input : List Char) : List (List Char) :=
  split_to_chunks (sanitize_text (strip input)) cfg.chunkChars

def speechGap (cfg : ChatterboxCfg) (o : ChatterboxOracle) : Nat :=
  o.sr * cfg.gapMs / 1000

def speechLoop (cfg : ChatterboxCfg) (o : ChatterboxOracle) (input : List Char) :
    Except String (List (List ℚ)) × List Event :=
  chunkLoop o cfg.retryOnCudaError (speechGap cfg o) (speechChunks cfg input).length
    0 (speechChunks cfg input)

/-- Either a request fails before synthesis (only load events), or its
events and result are those of the chunk loop. -/
theorem speech_dispatch (cfg : ChatterboxCfg) (o : ChatterboxOracle) (input : List Char) :
    ((∃ st msg, (speech cfg o input).1 = SpeechResult.err st msg) ∧
      ∀ ev ∈ (speech cfg o input).2, ev = Event.loadModel) ∨
    ∃ levs, (∀ ev ∈ levs, ev = Event.loadModel) ∧
      (speech cfg o input).2 = levs ++ (speechLoop cfg o input).2 ∧
      (∀ e, (speechLoop cfg o input).1 = Except.error e →
        (speech cfg o input).1 = SpeechResult.err 500 e) ∧
      (∀ parts, (speechLoop cfg o input).1 = Except.ok parts →
        (speech cfg o input).1 = SpeechResult.ok parts.flatten o.sr) ∧
      speechChunks cfg input ≠ [] := by
  by_cases h1 : strip input = []
  · refine Or.inl ⟨⟨400, "Missing input text", by simp [speech, h1]⟩, ?_⟩
    intro ev hev
    simp [speech, h1] at hev
  · by_cases h2 : cfg.promptPath.isSome = true ∧ cfg.promptExists = false
    · rcases hm : o.modelLoaded with _ | _
      · rcases hl : o.loadResult with e | u
        · refine Or.inl ⟨⟨500, e, by simp [speech, h1, hm, hl]⟩, ?_⟩
          intro ev hev
          simp [speech, h1, hm, hl] at hev
          simp [hev]
        · refine Or.inl ⟨⟨400, "audio_prompt_path not found",
            by simp [speech, h1, h2, hm, hl]⟩, ?_⟩
          intro ev hev
          simp [speech, h1, h2, hm, hl] at hev
          simp [hev]
      · refine Or.inl ⟨⟨400, "audio_prompt_path not found",
          by simp [speech, h1, h2, hm]⟩, ?_⟩
        intro ev hev
        simp [speech, h1, h2, hm] at hev
    · by_cases h3 : split_to_chunks (sanitize_text (strip input)) cfg.chunkChars = []
      · rcases hm : o.modelLoaded with _ | _
        · rcases hl : o.loadResult with e | u
          · refine Or.inl ⟨⟨500, e, by simp [speech, h1, hm, hl]⟩, ?_⟩
            intro ev hev
            simp [speech, h1, hm, hl] at hev
            simp [hev]
          · refine Or.inl ⟨⟨400, "Empty input after sanitization",
              by simp [speech, h1, h2, h3, hm, hl]⟩, ?_⟩
            intro ev hev
            simp [speech, h1, h2, h3, hm, hl] at hev
            simp [hev]
        · refine Or.inl ⟨⟨400, "Empty input after sanitization",
            by simp [speech, h1, h2, h3, hm]⟩, ?_⟩
          intro ev hev
          simp [speech, h1, h2, h3, hm] at hev
      · rcases hm : o.modelLoaded with _ | _
        · rcases hl : o.loadResult with e | u
          · refine Or.inl ⟨⟨500, e, by simp [speech, h1, hm, hl]⟩, ?_⟩
            intro ev hev
            simp [speech, h1, hm, hl] at hev
            simp [hev]
          · right
            refine ⟨[Event.loadModel], by simp, ?_, ?_, ?_, h3⟩
            · rcases hc : (speechLoop cfg o input).1 with e | parts <;>
                [skip; skip] <;>
                simp only [speechLoop, speechChunks, speechGap] at hc <;>
                simp [speech, speechLoop, speechChunks, speechGap, h1, h2, h3, hm, hl, hc]
            · intro e he
              simp only [speechLoop, speechChunks, speechGap] at he
              simp [speech, h1, h2, h3, hm, hl, he]
            · intro parts hp
              simp only [speechLoop, speechChunks, speechGap] at hp
              simp [speech, h1, h2, h3, hm, hl, hp]
        · right
          refine ⟨[], by simp, ?_, ?_, ?_, h3⟩
          · rcases hc : (speechLoop cfg o input).1 with e | parts <;>
              [skip; skip] <;>
              simp only [speechLoop, speechChunks, speechGap] at hc <;>
              simp [speech, speechLoop, speechChunks, speechGap, h1, h2, h3, hm, hc]
          · intro e he
            simp only [speechLoop, speechChunks, speechGap] at he
            simp [speech, h1, h2, h3, hm, he]
          · intro parts hp
            simp only [speechLoop, speechChunks, speechGap] at hp
            simp [speech, h1, h2, h3, hm, hp]

theorem genChunk_mem_generate (o : ChatterboxOracle) (retry : Bool) (i j a : Nat)
    (h : Event.generate j a ∈ (genChunk o retry i).2) : j = i := by
  unfold genChunk at h
  split at h
  · simp at h
    tauto
  · split at h
    · simp at h
      tauto
    · simp at h
      tauto

theorem genChunk_nodup (o : ChatterboxOracle) (retry : Bool) (i : Nat) :
    (genChunk o retry i).2.Nodup := by
  unfold genChunk
  split
  · simp
  · split
    · simp
    · simp

theorem genChunk_events_of_cuda_fail (o : ChatterboxOracle) (i : Nat) (e : String)
    (he : o.generate i 0 = Except.error e) (hc : is_cuda_related_error e.toList = true) :
    (genChunk o true i).2
      = [Event.generate i 0, Event.cudaRecover, Event.generate i 1] := by
  unfold genChunk
  rw [he]
  have hc' : is_cuda_related_error e.data = true := hc
  simp [hc']

theorem genChunk_retry_mem_iff (o : ChatterboxOracle) (retry : Bool) (i : Nat) :
    Event.generate i 1 ∈ (genChunk o retry i).2 ↔
      ∃ e, o.generate i 0 = Except.error e ∧ retry = true ∧
        is_cuda_related_error e.toList = true := by
  unfold genChunk
  rcases hg : o.generate i 0 with e | w
  · simp only [hg]
    by_cases hcond : (retry && is_cuda_related_error e.toList) = true
    · rw [if_pos hcond]
      rw [Bool.and_eq_true] at hcond
      constructor
      · intro _
        exact ⟨e, rfl, hcond.1, hcond.2⟩
      · intro _
        simp
    · rw [if_neg hcond]
      constructor
      · intro h
        exact absurd h (by simp)
      · rintro ⟨e', he', hr, hc⟩
        obtain rfl : e = e' := by simpa using he'
        exact absurd (by rw [hr, hc]; rfl : (retry && is_cuda_related_error e.toList) = true) hcond
  · simp [hg]

theorem chunkLoop_events_shape (o : ChatterboxOracle) (retry : Bool) (gap k : Nat) :
    ∀ (chs : List (List Char)) (i : Nat) (ev : Event),
      ev ∈ (chunkLoop o retry gap k i chs).2 →
      ∃ j, i ≤ j ∧ j < i + chs.length ∧ ev ∈ (genChunk o retry j).2
  | [], i, ev, h => by
    simp [chunkLoop] at h
  | ch :: rest, i, ev, h => by
    simp only [chunkLoop] at h
    split at h
    · exact ⟨i, Nat.le_refl i, by simp, h⟩
    · split at h
      · exact ⟨i, Nat.le_refl i, by simp, h⟩
      · split at h
        · rcases List.mem_append.mp h with h1 | h2
          · exact ⟨i, Nat.le_refl i, by simp, h1⟩
          · obtain ⟨j, hj1, hj2, hj3⟩ := chunkLoop_events_shape o retry gap k rest (i + 1) ev h2
            exact ⟨j, by omega, by simp only [List.length_cons]; omega, hj3⟩
        · split at h <;>
          · rcases List.mem_append.mp h with h1 | h2
            · exact ⟨i, Nat.le_refl i, by simp, h1⟩
            · obtain ⟨j, hj1, hj2, hj3⟩ := chunkLoop_events_shape o retry gap k rest (i + 1) ev h2
              exact ⟨j, by omega, by simp only [List.length_cons]; omega, hj3⟩

theorem chunkLoop_count_le (o : ChatterboxOracle) (retry : Bool) (gap k : Nat) :
    ∀ (chs : List (List Char)) (i j a : Nat),
      ((chunkLoop o retry gap k i chs).2.count (Event.generate j a)) ≤ 1
  | [], i, j, a => by
    simp [chunkLoop]
  | ch :: rest, i, j, a => by
    have hgc : ((genChunk o retry i).2.count (Event.generate j a)) ≤ 1 :=
      List.nodup_iff_count_le_one.mp (genChunk_nodup o retry i) _
    have hrec0 : j = i →
        ((chunkLoop o retry gap k (i + 1) rest).2.count (Event.generate j a)) = 0 := by
      intro rfl'
      rw [List.count_eq_zero]
      intro hmem
      obtain ⟨j', hj1, _, hj3⟩ := chunkLoop_events_shape o retry gap k rest (i + 1) _ hmem
      have := genChunk_mem_generate o retry j' j a hj3
      omega
    have hgc0 : j ≠ i → ((genChunk o retry i).2.count (Event.generate j a)) = 0 := by
      intro hne
      rw [List.count_eq_zero]
      intro hmem
      exact hne (genChunk_mem_generate o retry i j a hmem)
    simp only [chunkLoop]
    split
    · exact hgc
    · split
      · exact hgc
      · split
        · rcases Decidable.em (j = i) with rfl' | hne
          · rw [List.count_append, hrec0 rfl']
            simpa using hgc
          · rw [List.count_append, hgc0 hne]
            simpa using chunkLoop_count_le o retry gap k rest (i + 1) j a
        · split <;>
          · rcases Decidable.em (j = i) with rfl' | hne
            · rw [List.count_append, hrec0 rfl']
              simpa using hgc
            · rw [List.count_append, hgc0 hne]
              simpa using chunkLoop_count_le o retry gap k rest (i + 1) j a

theorem chunkLoop_mem_genChunk (o : ChatterboxOracle) (retry : Bool) (gap k : Nat)
    (chs : List (List Char)) (i j a : Nat)
    (h : Event.generate j a ∈ (chunkLoop o retry gap k i chs).2) :
    Event.generate j a ∈ (genChunk o retry j).2 := by
  obtain ⟨j', _, _, hj3⟩ := chunkLoop_events_shape o retry gap k chs i _ h
  obtain rfl := genChunk_mem_generate o retry j' j a hj3
  exact hj3

theorem chunkLoop_abort (o : ChatterboxOracle) (retry : Bool) (gap k : Nat) :
    ∀ (chs : List (List Char)) (i j : Nat) (e : String),
      Event.generate j 0 ∈ (chunkLoop o retry gap k i chs).2 →
      (genChunk o retry j).1 = Except.error e →
      ∃ e', (chunkLoop o retry gap k i chs).1 = Except.error e'
  | [], i, j, e, hmem, _ => by
    simp [chunkLoop] at hmem
  | ch :: rest, i, j, e, hmem, hfail => by
    simp only [chunkLoop] at hmem ⊢
    rcases hg : (genChunk o retry i).1 with e0 | w
    · simp only [hg] at hmem ⊢
      exact ⟨e0, rfl⟩
    · simp only [hg] at hmem ⊢
      rcases hs : sanitize_wav w with e1 | seg
      · simp only [hs] at hmem ⊢
        exact ⟨e1, rfl⟩
      · simp only [hs] at hmem ⊢
        rcases hr : (chunkLoop o retry gap k (i + 1) rest).1 with e2 | parts
        · simp only [hr] at hmem ⊢
          exact ⟨e2, rfl⟩
        · simp only [hr] at hmem ⊢
          exfalso
          have hmem' : Event.generate j 0 ∈
              (genChunk o retry i).2 ++ (chunkLoop o retry gap k (i + 1) rest).2 := by
            split at hmem <;> simpa using hmem
          rcases List.mem_append.mp hmem' with h1 | h2
          · obtain rfl := genChunk_mem_generate o retry i j 0 h1
            rw [hfail] at hg
            exact absurd hg (by simp)
          · obtain ⟨e', he'⟩ := chunkLoop_abort o retry gap k rest (i + 1) j e h2 hfail
            rw [hr] at he'
            exact absurd he' (by simp)

theorem genChunk_fail_of_not_cuda (o : ChatterboxOracle) (retry : Bool) (i : Nat)
    (e : String) (he : o.generate i 0 = Except.error e)
    (hnc : ¬ is_cuda_related_error e.toList = true) :
    (genChunk o retry i).1 = Except.error e := by
  unfold genChunk
  simp only [he]
  rw [if_neg]
  intro hand
  exact hnc ((Bool.and_eq_true _ _).mp hand).2

theorem genChunk_double_fail (o : ChatterboxOracle) (retry : Bool) (i : Nat)
    (e₁ e₂ : String) (h1 : o.generate i 0 = Except.error e₁)
    (h2 : o.generate i 1 = Except.error e₂) :
    ∃ er, (genChunk o retry i).1 = Except.error er := by
  unfold genChunk
  simp only [h1]
  split
  · exact ⟨e₂, by simp [h2]⟩
  · exact ⟨e₁, rfl⟩

theorem speech_ok_spec (cfg : ChatterboxCfg) (o : ChatterboxOracle) (input : List Char)
    (wav : List ℚ) (sr : Nat) (h : (speech cfg o input).1 = SpeechResult.ok wav sr) :
    sr = o.sr ∧
    (∀ j, j < (speechChunks cfg input).length →
      ∃ s, chunkSeg o cfg.retryOnCudaError j = some s) ∧
    wav.length = ((List.range' 0 (speechChunks cfg input).length).map
        (fun j => ((chunkSeg o cfg.retryOnCudaError j).getD []).length)).sum +
      ((speechChunks cfg input).length - 1) * speechGap cfg o := by
  rcases speech_dispatch cfg o input with ⟨⟨st, msg, herr⟩, _⟩ | ⟨levs, _, _, herr, hok, _⟩
  · rw [herr] at h
    exact absurd h (by simp)
  · rcases hc : (speechLoop cfg o input).1 with e | parts
    · rw [herr e hc] at h
      exact absurd h (by simp)
    · rw [hok parts hc] at h
      obtain ⟨rfl, rfl⟩ : parts.flatten = wav ∧ o.sr = sr := by simpa using h
      have hrec : chunkLoop o cfg.retryOnCudaError (speechGap cfg o)
          (speechChunks cfg input).length 0 (speechChunks cfg input)
          = (Except.ok parts, (speechLoop cfg o input).2) := by
        have hx : speechLoop cfg o input
            = (Except.ok parts, (speechLoop cfg o input).2) := by
          rw [← hc]
        exact hx
      obtain ⟨h1, h2⟩ := chunkLoop_ok_spec o cfg.retryOnCudaError (speechGap cfg o)
        (speechChunks cfg input).length (speechChunks cfg input) 0 parts _ (by simp) hrec
      refine ⟨rfl, ?_, ?_⟩
      · intro j hj
        simpa using h1 j hj
      · simpa using h2

/-! ## C3: bounded retry and all-or-nothing output -/

/-- C3: with retry enabled, a device-related first failure on a chunk
triggers exactly one recovery-and-retry of that same chunk; no chunk is
ever attempted more than twice; an unclassified failure retries nothing
and aborts the request with an error response; a second failure on the
same chunk aborts the request; and a successful response requires every
attempted chunk's generation to have succeeded — an error response
carries no audio, so no partial audio reaches the caller. -/
theorem C3_retry_once_all_or_nothing (cfg : ChatterboxCfg) (o : ChatterboxOracle)
    (input : List Char) (hretry : cfg.retryOnCudaError = true) :
    (∀ i e, o.generate i 0 = Except.error e → is_cuda_related_error e.toList = true →
      (genChunk o cfg.retryOnCudaError i).2
        = [Event.generate i 0, Event.cudaRecover, Event.generate i 1] ∧
      (genChunk o cfg.retryOnCudaError i).1 = o.generate i 1) ∧
    (∀ i a, ((speech cfg o input).2.count (Event.generate i a)) ≤ 1) ∧
    (∀ i e, o.generate i 0 = Except.error e → ¬ is_cuda_related_error e.toList = true →
      Event.generate i 1 ∉ (speech cfg o input).2 ∧
      (Event.generate i 0 ∈ (speech cfg o input).2 →
        ∃ msg, (speech cfg o input).1 = SpeechResult.err 500 msg)) ∧
    (∀ i e₁ e₂, o.generate i 0 = Except.error e₁ → o.generate i 1 = Except.error e₂ →
      Event.generate i 0 ∈ (speech cfg o input).2 →
      ∃ msg, (speech cfg o input).1 = SpeechResult.err 500 msg) ∧
    (∀ wav sr, (speech cfg o input).1 = SpeechResult.ok wav sr →
      ∀ i, Event.generate i 0 ∈ (speech cfg o input).2 →
        ∃ w, (genChunk o cfg.retryOnCudaError i).1 = Except.ok w) := by
  rw [hretry]
  have hsl : speechLoop cfg o input
      = chunkLoop o true (speechGap cfg o) (speechChunks cfg input).length 0
        (speechChunks cfg input) := by
    rw [speechLoop, hretry]
  refine ⟨?_, ?_, ?_, ?_, ?_⟩
  · intro i e he hc
    refine ⟨genChunk_events_of_cuda_fail o i e he hc, ?_⟩
    unfold genChunk
    rw [he]
    have hc' : is_cuda_related_error e.data = true := hc
    simp [hc']
  · intro i a
    rcases speech_dispatch cfg o input with ⟨_, hload⟩ | ⟨levs, hlevs, hevs, _, _, _⟩
    · rw [List.count_eq_zero.mpr]
      · omega
      · intro hmem
        exact absurd (hload _ hmem) (by simp)
    · rw [hevs, List.count_append, List.count_eq_zero.mpr]
      · rw [hsl]
        simpa using chunkLoop_count_le o true (speechGap cfg o)
          (speechChunks cfg input).length (speechChunks cfg input) 0 i a
      · intro hmem
        exact absurd (hlevs _ hmem) (by simp)
  · intro i e he hnc
    constructor
    · intro hmem
      rcases speech_dispatch cfg o input with ⟨_, hload⟩ | ⟨levs, hlevs, hevs, _, _, _⟩
      · exact absurd (hload _ hmem) (by simp)
      · rw [hevs] at hmem
        rcases List.mem_append.mp hmem with h1 | h2
        · exact absurd (hlevs _ h1) (by simp)
        · have := chunkLoop_mem_genChunk o true (speechGap cfg o)
            (speechChunks cfg input).length (speechChunks cfg input) 0 i 1
            (by rw [hsl] at h2; exact h2)
          obtain ⟨e', he', _, hc'⟩ := (genChunk_retry_mem_iff o true i).mp this
          obtain rfl : e = e' := by
            have := he.symm.trans he'
            simpa using this
          exact hnc hc'
    · intro hmem
      rcases speech_dispatch cfg o input with ⟨_, hload⟩ | ⟨levs, hlevs, hevs, herr, _, _⟩
      · exact absurd (hload _ hmem) (by simp)
      · rw [hevs] at hmem
        rcases List.mem_append.mp hmem with h1 | h2
        · exact absurd (hlevs _ h1) (by simp)
        · have hfail : (genChunk o true i).1 = Except.error e :=
            genChunk_fail_of_not_cuda o true i e he hnc
          obtain ⟨e', he'⟩ := chunkLoop_abort o true (speechGap cfg o)
            (speechChunks cfg input).length (speechChunks cfg input) 0 i e
            (by rw [hsl] at h2; exact h2) hfail
          refine ⟨e', herr e' ?_⟩
          rw [hsl]
          exact he'
  · intro i e₁ e₂ h1 h2 hmem
    rcases speech_dispatch cfg o input with ⟨_, hload⟩ | ⟨levs, hlevs, hevs, herr, _, _⟩
    · exact absurd (hload _ hmem) (by simp)
    · rw [hevs] at hmem
      rcases List.mem_append.mp hmem with hm1 | hm2
      · exact absurd (hlevs _ hm1) (by simp)
      · obtain ⟨er, her⟩ := genChunk_double_fail o true i e₁ e₂ h1 h2
        obtain ⟨e', he'⟩ := chunkLoop_abort o true (speechGap cfg o)
          (speechChunks cfg input).length (speechChunks cfg input) 0 i er
          (by rw [hsl] at hm2; exact hm2) her
        refine ⟨e', herr e' ?_⟩
        rw [hsl]
        exact he'
  · intro wav sr hok i hmem
    rcases speech_dispatch cfg o input with ⟨⟨st, msg, herr0⟩, _⟩ | ⟨levs, hlevs, hevs, herr, hok', _⟩
    · rw [herr0] at hok
      exact absurd hok (by simp)
    · rw [hevs] at hmem
      rcases List.mem_append.mp hmem with hm1 | hm2
      · exact absurd (hlevs _ hm1) (by simp)
      · rcases hg : (genChunk o true i).1 with e | w
        · obtain ⟨e', he'⟩ := chunkLoop_abort o true (speechGap cfg o)
            (speechChunks cfg input).length (speechChunks cfg input) 0 i e
            (by rw [hsl] at hm2; exact hm2) hg
          have := herr e' (by rw [hsl]; exact he')
          rw [this] at hok
          exact absurd hok (by simp)
        · exact ⟨w, rfl⟩

/-- Witness for C3 at a concrete configuration with retry enabled. -/
theorem C3_retry_once_all_or_nothing_witness :
    ((speech ⟨320, 70, true, none, true⟩
      ⟨true, Except.ok (), 1000,
        fun _ _ => Except.ok (NdArray.d1 (List.replicate 8 (FSample.val 0)))⟩
      "Hi.".toList).2.count (Event.generate 0 0)) ≤ 1 :=
  (C3_retry_once_all_or_nothing ⟨320, 70, true, none, true⟩
    ⟨true, Except.ok (), 1000,
      fun _ _ => Except.ok (NdArray.d1 (List.replicate 8 (FSample.val 0)))⟩
    "Hi.".toList rfl).2.1 0 0

/-! ## C6: assembler concatenation length -/

/-- C6: for every successful request, each of the `k` chunks has a
sanitized segment, and the concatenated waveform passed to the encoder
has exactly `n₁ + … + nₖ + (k − 1) · g` samples, where `nⱼ` is the
length of chunk `j`'s segment and `g = ⌊sr · GAP_MS / 1000⌋` is the
inter-chunk gap (inserted between consecutive chunks, not after the
last). -/
theorem C6_assembler_concat_length (cfg : ChatterboxCfg) (o : ChatterboxOracle)
    (input : List Char) (wav : List ℚ) (sr : Nat)
    (h : (speech cfg o input).1 = SpeechResult.ok wav sr) :
    (∀ j, j < (speechChunks cfg input).length →
      ∃ s, chunkSeg o cfg.retryOnCudaError j = some s) ∧
    wav.length = ((List.range' 0 (speechChunks cfg input).length).map
        (fun j => ((chunkSeg o cfg.retryOnCudaError j).getD []).length)).sum +
      ((speechChunks cfg input).length - 1) * (o.sr * cfg.gapMs / 1000) :=
  ⟨(speech_ok_spec cfg o input wav sr h).2.1, (speech_ok_spec cfg o input wav sr h).2.2⟩

/-- Witness for C6: a one-chunk request with an 8-sample segment and
`sr = 1000`, `GAP_MS = 70`. -/
theorem C6_assembler_concat_length_witness :
    (∀ j, j < (speechChunks ⟨320, 70, true, none, true⟩ "Hi.".toList).length →
      ∃ s, chunkSeg
        ⟨true, Except.ok (), 1000,
          fun _ _ => Except.ok (NdArray.d1 (List.replicate 8 (FSample.val 0)))⟩
        true j = some s) ∧
    ((List.replicate 8 (FSample.val 0)).map (fun x => clip1 (nanToNum x))).length =
      ((List.range' 0 (speechChunks ⟨320, 70, true, none, true⟩ "Hi.".toList).length).map
        (fun j => ((chunkSeg
          ⟨true, Except.ok (), 1000,
            fun _ _ => Except.ok (NdArray.d1 (List.replicate 8 (FSample.val 0)))⟩
          true j).getD []).length)).sum +
      ((speechChunks ⟨320, 70, true, none, true⟩ "Hi.".toList).length - 1) *
        (1000 * 70 / 1000) :=
  C6_assembler_concat_length ⟨320, 70, true, none, true⟩
    ⟨true, Except.ok (), 1000,
      fun _ _ => Except.ok (NdArray.d1 (List.replicate 8 (FSample.val 0)))⟩
    "Hi.".toList
    ((List.replicate 8 (FSample.val 0)).map (fun x => clip1 (nanToNum x))) 1000
    rfl

/-! ## C10: implicit minimum-segment guarantee -/

/-- C10: `_sanitize_wav` raises `ValueError` exactly when the sanitized
waveform has fewer than 8 samples and otherwise returns a rank-1 array
of at least 8 samples; consequently every per-chunk segment of a
successful `/audio/speech` response has at least 8 samples. -/
theorem C10_min_segment_guarantee :
    (∀ w : NdArray, (∃ e, sanitize_wav w = Except.error e) ↔ (flattenWav w).length < 8) ∧
    (∀ (w : NdArray) (xs : List ℚ), sanitize_wav w = Except.ok xs → 8 ≤ xs.length) ∧
    (∀ (cfg : ChatterboxCfg) (o : ChatterboxOracle) (input : List Char)
      (wav : List ℚ) (sr : Nat), (speech cfg o input).1 = SpeechResult.ok wav sr →
      ∀ j, j < (speechChunks cfg input).length →
        ∃ s, chunkSeg o cfg.retryOnCudaError j = some s ∧ 8 ≤ s.length) := by
  refine ⟨sanitize_wav_error_iff, fun w xs h => sanitize_wav_ok_length h, ?_⟩
  intro cfg o input wav sr h j hj
  obtain ⟨s, hs⟩ := (speech_ok_spec cfg o input wav sr h).2.1 j hj
  refine ⟨s, hs, ?_⟩
  unfold chunkSeg at hs
  rcases hg : (genChunk o cfg.retryOnCudaError j).1 with e | w
  · simp [hg] at hs
  · simp only [hg] at hs
    rcases hw : sanitize_wav w with e | seg
    · simp [hw] at hs
    · simp only [hw] at hs
      obtain rfl : seg = s := by simpa using hs
      exact sanitize_wav_ok_length hw

/-- Witness for C10: an empty waveform is rejected, a short waveform's
error is detected, and the pipeline part is exercised at a concrete
successful request. -/
theorem C10_min_segment_guarantee_witness :
    (∃ e, sanitize_wav (NdArray.d1 [FSample.nan]) = Except.error e) ∧
    (∃ s, chunkSeg
      ⟨true, Except.ok (), 1000,
        fun _ _ => Except.ok (NdArray.d1 (List.replicate 8 (FSample.val 0)))⟩
      true 0 = some s ∧ 8 ≤ s.length) :=
  ⟨(C10_min_segment_guarantee.1 (NdArray.d1 [FSample.nan])).mpr (by decide),
   C10_min_segment_guarantee.2.2 ⟨320, 70, true, none, true⟩
    ⟨true, Except.ok (), 1000,
      fun _ _ => Except.ok (NdArray.d1 (List.replicate 8 (FSample.val 0)))⟩
    "Hi.".toList
    ((List.replicate 8 (FSample.val 0)).map (fun x => clip1 (nanToNum x))) 1000
    rfl 0 (by decide)⟩

/-! ## C8: rejection of empty input

The claim is false as stated: the handler's blank check runs on the raw
(stripped) input *before* the model is loaded, but text that becomes
blank only during normalization — e.g. a lone `U+200B ZERO WIDTH SPACE`,
which Python's `str.strip()` does not remove — passes that check, so the
model is loaded before the post-sanitization emptiness check rejects the
request with 400. -/

/-- C8 counterexample: for the input consisting of one `U+200B`, the
text is blank after normalization and the handler does return 400, but
the backend model is loaded first. -/
theorem C8_counterexample :
    sanitize_text (strip [Char.ofNat 0x200B]) = [] ∧
    (speech ⟨320, 70, true, none, true⟩
      ⟨false, Except.ok (), 1000, fun _ _ => Except.error "unreached"⟩
      [Char.ofNat 0x200B]).1 = SpeechResult.err 400 "Empty input after sanitization" ∧
    Event.loadModel ∈ (speech ⟨320, 70, true, none, true⟩
      ⟨false, Except.ok (), 1000, fun _ _ => Except.error "unreached"⟩
      [Char.ofNat 0x200B]).2 := by
  decide

/-- C8 amended: a request whose raw text is empty or blank is rejected
with 400 before any backend activity (no model load, no synthesis); a
request whose text becomes blank only after normalization is rejected
with an error response and no synthesis call is made, though the
backend model may have been loaded first. -/
theorem C8_amended (cfg : ChatterboxCfg) (o : ChatterboxOracle) (input : List Char) :
    (strip input = [] →
      (speech cfg o input).1 = SpeechResult.err 400 "Missing input text" ∧
      (speech cfg o input).2 = []) ∧
    (sanitize_text (strip input) = [] →
      (∃ st msg, (speech cfg o input).1 = SpeechResult.err st msg) ∧
      ∀ i a, Event.generate i a ∉ (speech cfg o input).2) := by
  constructor
  · intro h
    constructor <;> simp [speech, h]
  · intro h
    have hchunks : speechChunks cfg input = [] := by
      simp [speechChunks, h, split_to_chunks]
    rcases speech_dispatch cfg o input with ⟨herr, hload⟩ | ⟨_, _, _, _, _, hne⟩
    · refine ⟨herr, ?_⟩
      intro i a hmem
      exact absurd (hload _ hmem) (by simp)
    · exact absurd hchunks hne

/-- Witness for C8's amended theorem at the `U+200B` input. -/
theorem C8_amended_witness :
    (∃ st msg, (speech ⟨320, 70, true, none, true⟩
      ⟨false, Except.ok (), 1000, fun _ _ => Except.error "unreached"⟩
      [Char.ofNat 0x200B]).1 = SpeechResult.err st msg) ∧
    ∀ i a, Event.generate i a ∉ (speech ⟨320, 70, true, none, true⟩
      ⟨false, Except.ok (), 1000, fun _ _ => Except.error "unreached"⟩
      [Char.ofNat 0x200B]).2 :=
  (C8_amended ⟨320, 70, true, none, true⟩
    ⟨false, Except.ok (), 1000, fun _ _ => Except.error "unreached"⟩
    [Char.ofNat 0x200B]).2 (by decide)

/-! ## Lemmas on `strip` and the splitters -/

theorem dropTrailingWs_length_le (s : List Char) :
    (dropTrailingWs s).length ≤ s.length := by
  induction s with
  | nil => simp [dropTrailingWs]
  | cons c rest ih =>
    simp only [dropTrailingWs]
    split
    · simp
    · simpa using ih

theorem strip_length_le (s : List Char) : (strip s).length ≤ s.length :=
  Nat.le_trans (dropTrailingWs_length_le _) ((List.dropWhile_sublist _).length_le)

theorem mem_dropTrailingWs {c : Char} {s : List Char}
    (h : c ∈ dropTrailingWs s) : c ∈ s := by
  induction s with
  | nil => simpa [dropTrailingWs] using h
  | cons d rest ih =>
    simp only [dropTrailingWs] at h
    split at h
    · simp at h
    · rcases List.mem_cons.mp h with rfl | h'
      · exact List.mem_cons_self _ _
      · exact List.mem_cons_of_mem _ (ih h')

theorem mem_strip {c : Char} {s : List Char} (h : c ∈ strip s) : c ∈ s :=
  (List.dropWhile_sublist isWs).subset (mem_dropTrailingWs h)

theorem wordSplitGo_wsFree (s : List Char) : ∀ (acc : List Char),
    (∀ c ∈ acc, isWs c = false) →
    ∀ w ∈ wordSplitGo acc s, ∀ ch ∈ w, isWs ch = false := by
  induction s with
  | nil =>
    intro acc hacc w hw ch hch
    simp only [wordSplitGo] at hw
    split at hw
    · simp at hw
    · obtain rfl : w = acc.reverse := by simpa using hw
      exact hacc ch (by simpa using hch)
  | cons c rest ih =>
    intro acc hacc w hw ch hch
    simp only [wordSplitGo] at hw
    split at hw
    · split at hw
      · exact ih [] (by simp) w hw ch hch
      · rcases List.mem_cons.mp hw with rfl | hw'
        · exact hacc ch (by simpa using hch)
        · exact ih [] (by simp) w hw' ch hch
    · rename_i hcw
      refine ih (c :: acc) ?_ w hw ch hch
      intro d hd
      rcases List.mem_cons.mp hd with rfl | hd'
      · simpa using hcw
      · exact hacc d hd'

/-! ## C4: the chunk-length bound -/

/-- A chunk respects the bound, or is a whitespace-free token. -/
def chunkOK (L : Nat) (c : List Char) : Prop :=
  c.length ≤ L ∨ ∀ ch ∈ c, isWs ch = false

theorem chunkOK_strip {L : Nat} {b : List Char} (h : chunkOK L b) :
    chunkOK L (strip b) := by
  rcases h with h | h
  · exact Or.inl (Nat.le_trans (strip_length_le b) h)
  · exact Or.inr (fun ch hch => h ch (mem_strip hch))

theorem pushBuf_chunkOK {L : Nat} {chunks : List (List Char)} {buf : List Char}
    (hc : ∀ c ∈ chunks, chunkOK L c) (hb : chunkOK L buf) :
    ∀ c ∈ pushBuf chunks buf, chunkOK L c := by
  intro c hmem
  simp only [pushBuf] at hmem
  split at hmem
  · exact hc c hmem
  · rcases List.mem_append.mp hmem with h | h
    · exact hc c h
    · obtain rfl : c = strip buf := by simpa using h
      exact chunkOK_strip hb

theorem strip_append_length {L : Nat} {x y : List Char}
    (h : x.length + y.length + 1 ≤ L) : (strip (x ++ ' ' :: y)).length ≤ L := by
  have h1 := strip_length_le (x ++ ' ' :: y)
  simp only [List.length_append, List.length_cons] at h1
  omega

theorem wrapWords_chunkOK (L : Nat) : ∀ (ws : List (List Char))
    (chunks : List (List Char)) (line : List Char),
    (∀ c ∈ chunks, chunkOK L c) → chunkOK L line →
    (∀ w ∈ ws, ∀ ch ∈ w, isWs ch = false) →
    (∀ c ∈ (wrapWords L chunks line ws).1, chunkOK L c) ∧
    chunkOK L (wrapWords L chunks line ws).2 := by
  intro ws
  induction ws with
  | nil =>
    intro chunks line hc hl _
    exact ⟨hc, hl⟩
  | cons w ws ih =>
    intro chunks line hc hl hws
    simp only [wrapWords]
    split
    · rename_i hfit
      exact ih chunks (strip (line ++ ' ' :: w))
        hc (Or.inl (strip_append_length hfit))
        (fun w' hw' => hws w' (List.mem_cons_of_mem _ hw'))
    · exact ih (pushBuf chunks line) w
        (pushBuf_chunkOK hc hl)
        (Or.inr (hws w (List.mem_cons_self _ _)))
        (fun w' hw' => hws w' (List.mem_cons_of_mem _ hw'))

theorem clauseLoop_chunkOK (L : Nat) : ∀ (sps : List (List Char))
    (chunks : List (List Char)) (buf : List Char),
    (∀ c ∈ chunks, chunkOK L c) → buf.length ≤ L →
    (∀ c ∈ (clauseLoop L chunks buf sps).1, chunkOK L c) ∧
    (clauseLoop L chunks buf sps).2.length ≤ L := by
  intro sps
  induction sps with
  | nil =>
    intro chunks buf hc hb
    exact ⟨hc, hb⟩
  | cons sp0 sps ih =>
    intro chunks buf hc hb
    simp only [clauseLoop]
    split
    · exact ih chunks buf hc hb
    · split
      · split
        · rename_i hle hfit
          exact ih chunks (strip (buf ++ ' ' :: strip sp0)) hc
            (strip_append_length hfit)
        · rename_i hle _
          exact ih (pushBuf chunks buf) (strip sp0)
            (pushBuf_chunkOK hc (Or.inl hb)) hle
      · rename_i hgt
        have hwords : ∀ w ∈ wordSplit (strip sp0), ∀ ch ∈ w, isWs ch = false :=
          wordSplitGo_wsFree (strip sp0) [] (by simp)
        obtain ⟨h1, h2⟩ := wrapWords_chunkOK L (wordSplit (strip sp0)) chunks []
          hc (Or.inl (Nat.zero_le L)) hwords
        exact ih (pushBuf (wrapWords L chunks [] (wordSplit (strip sp0))).1
            (wrapWords L chunks [] (wordSplit (strip sp0))).2) buf
          (pushBuf_chunkOK h1 h2) hb

theorem partLoop_chunkOK (L : Nat) : ∀ (ps : List (List Char))
    (chunks : List (List Char)) (buf : List Char),
    (∀ c ∈ chunks, chunkOK L c) → buf.length ≤ L →
    (∀ c ∈ (partLoop L chunks buf ps).1, chunkOK L c) ∧
    (partLoop L chunks buf ps).2.length ≤ L := by
  intro ps
  induction ps with
  | nil =>
    intro chunks buf hc hb
    exact ⟨hc, hb⟩
  | cons p ps ih =>
    intro chunks buf hc hb
    simp only [partLoop]
    split
    · obtain ⟨h1, h2⟩ := clauseLoop_chunkOK L (clauseSplit p) chunks buf hc hb
      exact ih _ _ h1 h2
    · rename_i hple
      split
      · exact ih chunks p hc (by omega)
      · split
        · rename_i hfit
          refine ih chunks (buf ++ ' ' :: p) hc ?_
          simp only [List.length_append, List.length_cons]
          omega
        · exact ih (pushBuf chunks buf) p (pushBuf_chunkOK hc (Or.inl hb)) (by omega)

/-- C4: every chunk produced by `_split_to_chunks(text, L)` with `L ≥ 1`
has length at most `L`, or exceeds `L` and is a single whitespace-free
token passed through whole. -/
theorem C4_chunk_bound (text : List Char) (L : Nat) (hL : 1 ≤ L) :
    ∀ c ∈ split_to_chunks text L,
      c.length ≤ L ∨ (L < c.length ∧ ∀ ch ∈ c, isWs ch = false) := by
  intro c hmem
  unfold split_to_chunks at hmem
  split at hmem
  · simp at hmem
  · obtain ⟨h1, h2⟩ := partLoop_chunkOK L (chunkParts text) [] [] (by simp) (by simp)
    have := pushBuf_chunkOK h1 (Or.inl h2) c hmem
    rcases this with h | h
    · exact Or.inl h
    · rcases Nat.lt_or_ge L c.length with hlt | hge
      · exact Or.inr ⟨hlt, h⟩
      · exact Or.inl hge

/-- Witness for C4 at a concrete text and bound, including an oversized
whitespace-free token. -/
theorem C4_chunk_bound_witness :
    (1 ≤ 5 ∧ ∀ c ∈ split_to_chunks "ab cd. extraordinarily long".toList 5,
      c.length ≤ 5 ∨ (5 < c.length ∧ ∀ ch ∈ c, isWs ch = false)) :=
  ⟨by decide, C4_chunk_bound "ab cd. extraordinarily long".toList 5 (by decide)⟩

/-! ## C1: content preservation of chunking -/

@[simp]
theorem nonWs_nil : nonWs [] = [] := rfl

theorem nonWs_append (x y : List Char) : nonWs (x ++ y) = nonWs x ++ nonWs y :=
  List.filter_append x y

theorem nonWs_cons (c : Char) (t : List Char) :
    nonWs (c :: t) = nonWs [c] ++ nonWs t := by
  by_cases h : isWs c <;> simp [nonWs, List.filter_cons, h]

theorem nonWs_ws_cons {c : Char} (t : List Char) (h : isWs c = true) :
    nonWs (c :: t) = nonWs t := by
  simp [nonWs, List.filter_cons, h]

theorem nonWs_dropWhile (s : List Char) : nonWs (s.dropWhile isWs) = nonWs s := by
  induction s with
  | nil => rfl
  | cons c rest ih =>
    by_cases h : isWs c
    · rw [List.dropWhile_cons_of_pos h, ih, nonWs_ws_cons rest h]
    · rw [List.dropWhile_cons_of_neg h]

theorem nonWs_dropTrailingWs (s : List Char) : nonWs (dropTrailingWs s) = nonWs s := by
  induction s with
  | nil => rfl
  | cons c rest ih =>
    simp only [dropTrailingWs]
    split
    · rename_i h
      have h2 : nonWs rest = [] := by
        rw [← ih, h.1]
        rfl
      rw [nonWs_ws_cons rest h.2, h2]
      rfl
    · rw [nonWs_cons, nonWs_cons c rest, ih]

theorem nonWs_strip (s : List Char) : nonWs (strip s) = nonWs s := by
  unfold strip
  rw [nonWs_dropTrailingWs, nonWs_dropWhile]

theorem reSplitGo_nonWs (trig : Char → Bool) (nl : Bool) : ∀ (s : List Char)
    (mode : SMode) (acc : List Char),
    nonWs (reSplitGo trig nl mode acc s).flatten
      = nonWs (match mode with | SMode.text => acc.reverse | _ => []) ++ nonWs s := by
  intro s
  induction s with
  | nil =>
    intro mode acc
    cases mode <;> simp [reSplitGo]
  | cons c rest ih =>
    intro mode acc
    cases mode with
    | text =>
      simp only [reSplitGo]
      split
      · rename_i hcond
        have hws : isWs c = true := ((Bool.and_eq_true _ _).mp hcond).2
        rw [List.flatten_cons, nonWs_append, ih SMode.sepWs [], nonWs_ws_cons rest hws]
        simp
      · split
        · rename_i hcond
          have hc : c = '\n' := by
            have := ((Bool.and_eq_true _ _).mp hcond).2
            simpa using this
          have hws : isWs c = true := by
            subst hc
            rfl
          rw [List.flatten_cons, nonWs_append, ih SMode.sepNl [], nonWs_ws_cons rest hws]
          simp
        · rw [ih SMode.text (c :: acc)]
          simp only [List.reverse_cons, nonWs_append]
          rw [nonWs_cons c rest]
          simp [List.append_assoc]
    | sepWs =>
      simp only [reSplitGo]
      split
      · rename_i hws
        rw [ih SMode.sepWs [], nonWs_ws_cons rest hws]
      · rw [ih SMode.text [c], nonWs_cons c rest]
        simp
    | sepNl =>
      simp only [reSplitGo]
      split
      · rename_i hcond
        have hc : c = '\n' := by simpa using hcond
        have hws : isWs c = true := by
          subst hc
          rfl
        rw [ih SMode.sepNl [], nonWs_ws_cons rest hws]
      · rw [ih SMode.text [c], nonWs_cons c rest]
        simp

theorem reSplit_nonWs (trig : Char → Bool) (nl : Bool) (s : List Char) :
    nonWs (reSplit trig nl s).flatten = nonWs s := by
  have := reSplitGo_nonWs trig nl s SMode.text []
  simpa [reSplit] using this

theorem clauseSplit_nonWs (s : List Char) : nonWs (clauseSplit s).flatten = nonWs s :=
  reSplit_nonWs clauseTrig false s

theorem sentenceSplit_nonWs (s : List Char) : nonWs (sentenceSplit s).flatten = nonWs s :=
  reSplit_nonWs sentenceTrig true s

theorem pushBuf_flatten_nonWs (chunks : List (List Char)) (buf : List Char) :
    nonWs (pushBuf chunks buf).flatten = nonWs chunks.flatten ++ nonWs buf := by
  simp only [pushBuf]
  split
  · rename_i h
    have : nonWs buf = [] := by
      rw [← nonWs_strip, h]
      rfl
    simp [this]
  · simp [List.flatten_append, nonWs_append, nonWs_strip]

theorem clauseLoop_nonWs (L : Nat) : ∀ (sps : List (List Char))
    (chunks : List (List Char)) (buf : List Char),
    (∀ sp ∈ sps, (strip sp).length ≤ L) →
    nonWs ((clauseLoop L chunks buf sps).1.flatten ++ (clauseLoop L chunks buf sps).2)
      = nonWs (chunks.flatten ++ buf) ++ nonWs sps.flatten := by
  intro sps
  induction sps with
  | nil =>
    intro chunks buf _
    simp [clauseLoop]
  | cons sp0 sps ih =>
    intro chunks buf hsp
    have htail : ∀ sp ∈ sps, (strip sp).length ≤ L :=
      fun sp h => hsp sp (List.mem_cons_of_mem _ h)
    have hsp0 : nonWs sp0 = nonWs (strip sp0) := (nonWs_strip sp0).symm
    simp only [clauseLoop]
    split
    · rename_i hempty
      rw [ih chunks buf htail]
      have h0 : nonWs sp0 = [] := by
        rw [hsp0, hempty]
        rfl
      simp [List.flatten_cons, nonWs_append, h0]
    · split
      · split
        · rw [ih chunks (strip (buf ++ ' ' :: strip sp0)) htail]
          have : nonWs (strip (buf ++ ' ' :: strip sp0)) = nonWs buf ++ nonWs sp0 := by
            rw [nonWs_strip, nonWs_append, nonWs_ws_cons _ (by rfl), nonWs_strip]
          simp [List.flatten_cons, nonWs_append, this, List.append_assoc]
        · rw [ih (pushBuf chunks buf) (strip sp0) htail]
          simp [List.flatten_cons, nonWs_append, pushBuf_flatten_nonWs,
            nonWs_strip, List.append_assoc]
      · rename_i hgt
        exact absurd (hsp sp0 (List.mem_cons_self _ _)) hgt

theorem partLoop_nonWs (L : Nat) : ∀ (ps : List (List Char))
    (chunks : List (List Char)) (buf : List Char),
    (∀ p ∈ ps, L < p.length → ∀ sp ∈ clauseSplit p, (strip sp).length ≤ L) →
    nonWs ((partLoop L chunks buf ps).1.flatten ++ (partLoop L chunks buf ps).2)
      = nonWs (chunks.flatten ++ buf) ++ nonWs ps.flatten := by
  intro ps
  induction ps with
  | nil =>
    intro chunks buf _
    simp [partLoop]
  | cons p ps ih =>
    intro chunks buf hps
    have htail : ∀ q ∈ ps, L < q.length → ∀ sp ∈ clauseSplit q, (strip sp).length ≤ L :=
      fun q h => hps q (List.mem_cons_of_mem _ h)
    simp only [partLoop]
    split
    · rename_i hbig
      rw [ih _ _ htail,
        clauseLoop_nonWs L (clauseSplit p) chunks buf (hps p (List.mem_cons_self _ _) hbig),
        clauseSplit_nonWs]
      simp [List.flatten_cons, nonWs_append, List.append_assoc]
    · split
      · rename_i hbufempty
        rw [ih chunks p htail]
        subst hbufempty
        simp [List.flatten_cons, nonWs_append, List.append_assoc]
      · split
        · rw [ih chunks (buf ++ ' ' :: p) htail]
          have : nonWs (buf ++ ' ' :: p) = nonWs buf ++ nonWs p := by
            rw [nonWs_append, nonWs_ws_cons _ (by rfl)]
          simp [List.flatten_cons, nonWs_append, this, List.append_assoc]
        · rw [ih (pushBuf chunks buf) p htail]
          simp [List.flatten_cons, nonWs_append, pushBuf_flatten_nonWs, List.append_assoc]

theorem filtered_strip_nonWs : ∀ (l : List (List Char)),
    nonWs ((l.filter (fun p => !p.isEmpty && !(strip p).isEmpty)).map strip).flatten
      = nonWs l.flatten := by
  intro l
  induction l with
  | nil => rfl
  | cons p l ih =>
    by_cases hq : (!p.isEmpty && !(strip p).isEmpty) = true
    · simp only [List.filter_cons, hq, if_true, List.map_cons, List.flatten_cons,
        nonWs_append, ih, nonWs_strip]
    · have h0 : nonWs p = [] := by
        rw [Bool.and_eq_true] at hq
        rcases not_and_or.mp hq with h | h
        · have : p = [] := by
            simpa using h
          rw [this]
          rfl
        · have : strip p = [] := by
            simpa using h
          rw [← nonWs_strip, this]
          rfl
      rw [List.filter_cons, if_neg hq, ih, List.flatten_cons, nonWs_append, h0,
        List.nil_append]

theorem chunkParts_nonWs (text : List Char) :
    nonWs (chunkParts text).flatten = nonWs text := by
  simp only [chunkParts]
  split
  · simp [nonWs_strip]
  · rw [filtered_strip_nonWs, sentenceSplit_nonWs]

/-- C1 counterexample: for `_split_to_chunks("ab. cdefghij", 5)` the
word-wrap fallback emits the long token before the buffered earlier
sentence, so the concatenated chunks do not reproduce the
non-whitespace content in its original order (the output is
`["cdefghij", "ab."]`). -/
theorem C1_counterexample :
    nonWs (split_to_chunks "ab. cdefghij".toList 5).flatten
      ≠ nonWs "ab. cdefghij".toList := by
  decide

/-- C1 amended: chunking is content-preserving in order whenever every
clause fragment of every oversized sentence fits within `L` (so the
word-wrap fallback is never reached); the counterexample shows the
fallback can reorder content relative to the pending buffer. -/
theorem C1_amended (text : List Char) (L : Nat) (hL : 1 ≤ L)
    (H : ∀ p ∈ chunkParts text, L < p.length →
      ∀ sp ∈ clauseSplit p, (strip sp).length ≤ L) :
    nonWs (split_to_chunks text L).flatten = nonWs text := by
  unfold split_to_chunks
  split
  · rename_i h
    rw [h]
    rfl
  · rw [pushBuf_flatten_nonWs, ← nonWs_append, partLoop_nonWs L (chunkParts text) [] [] H]
    simpa using chunkParts_nonWs text

/-- Witness for C1's amended theorem on a two-sentence text. -/
theorem C1_amended_witness :
    nonWs (split_to_chunks "Hi there. Bye.".toList 320).flatten
      = nonWs "Hi there. Bye.".toList :=
  C1_amended "Hi there. Bye.".toList 320 (by decide) (by decide)

/-! ## C9: idempotence of `_sanitize_text`

Machinery: a generic scanner for forbidden adjacent pairs, used to track
the canonically-composable pair `a`+`U+0300` and adjacent space runs
through the normalization stages. -/

def hasPair (P : Char → Char → Bool) : List Char → Bool
  | x :: y :: rest => P x y || hasPair P (y :: rest)
  | _ => false

/-- The canonically composable adjacency of the restricted table. -/
def agPair (x y : Char) : Bool := x == 'a' && y == Char.ofNat 0x300

/-- An adjacency of two space/tab characters (an uncollapsed run). -/
def spPair (x y : Char) : Bool := isSpTab x && isSpTab y

theorem hasPair_nil (P : Char → Char → Bool) : hasPair P [] = false := rfl

theorem hasPair_singleton (P : Char → Char → Bool) (x : Char) :
    hasPair P [x] = false := rfl

theorem hasPair_cons_tail {P : Char → Char → Bool} {x : Char} {l : List Char}
    (h : hasPair P (x :: l) = false) : hasPair P l = false := by
  cases l with
  | nil => rfl
  | cons y rest =>
    simp only [hasPair, Bool.or_eq_false_iff] at h
    exact h.2

theorem hasPair_head {P : Char → Char → Bool} {x : Char} {l : List Char}
    (h : hasPair P (x :: l) = false) : ∀ y ∈ l.head?, P x y = false := by
  intro y hy
  cases l with
  | nil => simp at hy
  | cons z rest =>
    obtain rfl : z = y := by simpa using hy
    simp only [hasPair, Bool.or_eq_false_iff] at h
    exact h.1

theorem hasPair_cons_false {P : Char → Char → Bool} {x : Char} {l : List Char}
    (h1 : ∀ y ∈ l.head?, P x y = false) (h2 : hasPair P l = false) :
    hasPair P (x :: l) = false := by
  cases l with
  | nil => rfl
  | cons y rest =>
    simp only [hasPair, Bool.or_eq_false_iff]
    exact ⟨h1 y (by simp), h2⟩

theorem hasPair_append_right {P : Char → Char → Bool} :
    ∀ {l₁ l₂ : List Char}, hasPair P (l₁ ++ l₂) = false → hasPair P l₂ = false := by
  intro l₁
  induction l₁ with
  | nil => exact fun h => h
  | cons x l₁ ih =>
    intro l₂ h
    exact ih (hasPair_cons_tail h)

theorem hasPair_append_left {P : Char → Char → Bool} :
    ∀ {l₁ l₂ : List Char}, hasPair P (l₁ ++ l₂) = false → hasPair P l₁ = false := by
  intro l₁
  induction l₁ with
  | nil => intro _ _; rfl
  | cons x l₁ ih =>
    intro l₂ h
    cases l₁ with
    | nil => rfl
    | cons y l₁' =>
      simp only [List.cons_append, hasPair, Bool.or_eq_false_iff] at h ⊢
      exact ⟨h.1, by simpa using @ih l₂ (by simpa using h.2)⟩

theorem hasPair_append_false {P : Char → Char → Bool} :
    ∀ {l₁ l₂ : List Char}, hasPair P l₁ = false → hasPair P l₂ = false →
    (∀ x ∈ l₁.getLast?, ∀ y ∈ l₂.head?, P x y = false) →
    hasPair P (l₁ ++ l₂) = false := by
  intro l₁
  induction l₁ with
  | nil => intro l₂ _ h2 _; exact h2
  | cons x l₁ ih =>
    intro l₂ h1 h2 h3
    cases l₁ with
    | nil =>
      refine hasPair_cons_false ?_ h2
      intro y hy
      exact h3 x (by simp) y hy
    | cons x' l₁' =>
      simp only [List.cons_append]
      refine hasPair_cons_false ?_ ?_
      · intro y hy
        obtain rfl : x' = y := by simpa using hy
        simp only [hasPair, Bool.or_eq_false_iff] at h1
        exact h1.1
      · refine ih (hasPair_cons_tail h1) h2 ?_
        intro a ha y hy
        refine h3 a ?_ y hy
        rwa [List.getLast?_cons_cons]

theorem hasPair_of_no_second {P : Char → Char → Bool} {l : List Char}
    (h : ∀ y ∈ l, ∀ x, P x y = false) : hasPair P l = false := by
  induction l with
  | nil => rfl
  | cons x l ih =>
    refine hasPair_cons_false ?_ (ih (fun y hy x' => h y (List.mem_cons_of_mem _ hy) x'))
    intro y hy
    exact h y (List.mem_cons_of_mem _ (List.mem_of_mem_head? hy)) x

theorem hasPair_replicate {P : Char → Char → Bool} {c : Char} (h : P c c = false) :
    ∀ n, hasPair P (List.replicate n c) = false := by
  intro n
  induction n with
  | zero => rfl
  | succ n ih =>
    rw [List.replicate_succ]
    refine hasPair_cons_false ?_ ih
    intro y hy
    cases n with
    | zero => simp at hy
    | succ n =>
      obtain rfl : c = y := by simpa [List.replicate_succ] using hy
      exact h

/-! ### Composition lemmas -/

theorem composePair_some {x y z : Char} (h : composePair x y = some z) :
    x = 'a' ∧ y = Char.ofNat 0x300 ∧ z = Char.ofNat 0xE0 := by
  unfold composePair at h
  split at h
  · rename_i hc
    obtain rfl : z = Char.ofNat 0xE0 := by simpa using h.symm
    exact ⟨hc.1, hc.2, rfl⟩
  · simp at h

theorem composePair_none_of_agPair_false {x y : Char} (h : agPair x y = false) :
    composePair x y = none := by
  unfold composePair
  rw [if_neg]
  intro hc
  simp [agPair, hc.1, hc.2] at h

theorem composePair_of_agPair_true {x y : Char} (h : agPair x y = true) :
    composePair x y = some (Char.ofNat 0xE0) := by
  unfold agPair at h
  rw [Bool.and_eq_true] at h
  unfold composePair
  rw [if_pos ⟨by simpa using h.1, by simpa using h.2⟩]

theorem agPair_left_eA (d : Char) : agPair (Char.ofNat 0xE0) d = false := by
  unfold agPair
  rw [(by decide : ((Char.ofNat 0xE0 : Char) == 'a') = false)]
  rfl

theorem nfkcCompose_id_of_noAG : ∀ {u : List Char},
    hasPair agPair u = false → nfkcCompose u = u := by
  intro u
  induction u with
  | nil => intro _; rfl
  | cons x rest ih =>
    intro h
    cases rest with
    | nil => rfl
    | cons y r' =>
      have htail : nfkcCompose (y :: r') = y :: r' := ih (hasPair_cons_tail h)
      have hxy : composePair x y = none :=
        composePair_none_of_agPair_false (hasPair_head h y (by simp))
      rw [nfkcCompose, htail]
      show (match composePair x y with
        | some z => z :: r'
        | none => x :: y :: r') = x :: y :: r'
      rw [hxy]

theorem nfkcCompose_noAG : ∀ (w : List Char), hasPair agPair (nfkcCompose w) = false := by
  intro w
  induction w with
  | nil => rfl
  | cons x rest ih =>
    simp only [nfkcCompose]
    rcases hr : nfkcCompose rest with _ | ⟨y, r'⟩
    · rfl
    · rw [hr] at ih
      rcases hc : composePair x y with _ | z
      · simp only [hc]
        refine hasPair_cons_false ?_ ih
        intro d hd
        have hyd : y = d := by simpa using hd
        cases hag : agPair x d with
        | false => rfl
        | true =>
          rw [← hyd] at hag
          exact absurd hc (by rw [composePair_of_agPair_true hag]; simp)
      · obtain ⟨_, _, rfl⟩ := composePair_some hc
        simp only [hc]
        refine hasPair_cons_false ?_ (hasPair_cons_tail ih)
        intro d _
        exact agPair_left_eA d

theorem mem_nfkcCompose : ∀ {w : List Char} {c : Char},
    c ∈ nfkcCompose w → c ∈ w ∨ c = Char.ofNat 0xE0 := by
  intro w
  induction w with
  | nil =>
    intro c h
    simp [nfkcCompose] at h
  | cons x rest ih =>
    intro c h
    rw [nfkcCompose] at h
    rcases hr : nfkcCompose rest with _ | ⟨y, r'⟩
    · rw [hr] at h
      obtain rfl : c = x := by simpa using h
      exact Or.inl (List.mem_cons_self _ _)
    · rw [hr] at h
      rcases hc : composePair x y with _ | z
      · simp only [hc] at h
        rcases List.mem_cons.mp h with rfl | h'
        · exact Or.inl (List.mem_cons_self _ _)
        · rcases ih (c := c) (by rw [hr]; exact h') with h'' | h''
          · exact Or.inl (List.mem_cons_of_mem _ h'')
          · exact Or.inr h''
      · obtain ⟨_, _, rfl⟩ := composePair_some hc
        simp only [hc] at h
        rcases List.mem_cons.mp h with rfl | h'
        · exact Or.inr rfl
        · rcases ih (c := c) (by rw [hr]; exact List.mem_cons_of_mem y h') with h'' | h''
          · exact Or.inl (List.mem_cons_of_mem _ h'')
          · exact Or.inr h''

/-! ### Decomposition and replacement lemmas -/

theorem flatMap_id_of {f : Char → List Char} : ∀ {u : List Char},
    (∀ c ∈ u, f c = [c]) → u.flatMap f = u := by
  intro u
  induction u with
  | nil => intro _; rfl
  | cons x rest ih =>
    intro h
    rw [List.flatMap_cons, h x (List.mem_cons_self _ _),
      ih (fun c hc => h c (List.mem_cons_of_mem _ hc))]
    rfl

theorem nfkcDecompChar_cases {x c : Char} (h : c ∈ nfkcDecompChar x) :
    c = x ∨ c = '.' := by
  unfold nfkcDecompChar at h
  split at h
  · exact Or.inr (by simpa using h)
  · exact Or.inl (by simpa using h)

theorem mem_nfkc {s : List Char} {c : Char} (h : c ∈ nfkc s) :
    c ∈ s ∨ c = '.' ∨ c = Char.ofNat 0xE0 := by
  unfold nfkc at h
  rcases mem_nfkcCompose h with h' | h'
  · obtain ⟨x, hx, hcx⟩ := List.mem_flatMap.mp h'
    rcases nfkcDecompChar_cases hcx with rfl | rfl
    · exact Or.inl hx
    · exact Or.inr (Or.inl rfl)
  · exact Or.inr (Or.inr h')

theorem replChar_stable {x c : Char} (h : c ∈ replChar x) :
    replChar c = [c] ∧ nfkcDecompChar c = [c] := by
  unfold replChar at h
  split at h
  · obtain rfl : c = '"' := by simpa using h
    exact ⟨by decide, by decide⟩
  · split at h
    · obtain rfl : c = Char.ofNat 0x27 := by simpa using h
      exact ⟨by decide, by decide⟩
    · split at h
      · obtain rfl : c = '-' := by simpa using h
        exact ⟨by decide, by decide⟩
      · split at h
        · have hc : c = '.' := by simpa using h
          subst hc
          exact ⟨by decide, by decide⟩
        · rename_i h1 h2 h3 h4
          obtain rfl : c = x := by simpa using h
          constructor
          · unfold replChar
            rw [if_neg h1, if_neg h2, if_neg h3, if_neg h4]
          · unfold nfkcDecompChar
            rw [if_neg]
            intro hx
            exact h4 hx

theorem replChar_nonzw {x c : Char} (h : c ∈ replChar x)
    (hx : isZeroWidth x = false) : isZeroWidth c = false := by
  unfold replChar at h
  split at h
  · obtain rfl : c = '"' := by simpa using h
    decide
  · split at h
    · obtain rfl : c = Char.ofNat 0x27 := by simpa using h
      decide
    · split at h
      · obtain rfl : c = '-' := by simpa using h
        decide
      · split at h
        · have hc : c = '.' := by simpa using h
          subst hc
          decide
        · obtain rfl : c = x := by simpa using h
          exact hx

theorem replChar_hasAG (x : Char) : hasPair agPair (replChar x) = false := by
  unfold replChar
  split
  · rfl
  · split
    · rfl
    · split
      · rfl
      · split
        · decide
        · rfl

theorem replSmart_head_grave {v : List Char}
    (h : (replSmart v).head? = some (Char.ofNat 0x300)) :
    v.head? = some (Char.ofNat 0x300) := by
  cases v with
  | nil => simp [replSmart] at h
  | cons x rest =>
    have hv : replSmart (x :: rest) = replChar x ++ replSmart rest :=
      List.flatMap_cons x rest replChar
    rw [hv] at h
    unfold replChar at h
    split at h
    · exact absurd (by simpa using h : ('"' : Char) = Char.ofNat 0x300) (by decide)
    · split at h
      · exact absurd (by simpa using h : (Char.ofNat 0x27 : Char) = Char.ofNat 0x300)
          (by decide)
      · split at h
        · exact absurd (by simpa using h : ('-' : Char) = Char.ofNat 0x300) (by decide)
        · split at h
          · exact absurd (by simpa using h : ('.' : Char) = Char.ofNat 0x300) (by decide)
          · have hx : x = Char.ofNat 0x300 := by simpa using h
            simp [hx]

theorem replSmart_hasAG : ∀ {v : List Char},
    hasPair agPair v = false → hasPair agPair (replSmart v) = false := by
  intro v
  induction v with
  | nil => intro _; rfl
  | cons x rest ih =>
    intro h
    have hv : replSmart (x :: rest) = replChar x ++ replSmart rest :=
      List.flatMap_cons x rest replChar
    rw [hv]
    refine hasPair_append_false (replChar_hasAG x) (ih (hasPair_cons_tail h)) ?_
    intro a ha y hy
    cases hag : agPair a y with
    | false => rfl
    | true =>
      exfalso
      unfold agPair at hag
      rw [Bool.and_eq_true] at hag
      obtain rfl : a = 'a' := by simpa using hag.1
      obtain rfl : y = Char.ofNat 0x300 := by simpa using hag.2
      have hrest : rest.head? = some (Char.ofNat 0x300) := replSmart_head_grave hy
      have hx : x = 'a' := by
        unfold replChar at ha
        split at ha
        · exact absurd (by simpa using ha : ('a' : Char) = '"') (by decide)
        · split at ha
          · exact absurd (by simpa using ha : ('a' : Char) = Char.ofNat 0x27) (by decide)
          · split at ha
            · exact absurd (by simpa using ha : ('a' : Char) = '-') (by decide)
            · split at ha
              · exact absurd (by simpa using ha : ('a' : Char) = '.') (by decide)
              · simpa using ha
      subst hx
      have := hasPair_head h (Char.ofNat 0x300) (by
        cases rest with
        | nil => simp at hrest
        | cons z r => simpa using hrest)
      simp [agPair] at this

/-! ### Space-collapse lemmas -/

theorem mem_collapseSpaces : ∀ {v : List Char} {c : Char},
    c ∈ collapseSpaces v → c ∈ v ∨ c = ' ' := by
  intro v
  induction v with
  | nil =>
    intro c h
    simp [collapseSpaces] at h
  | cons x rest ih =>
    intro c h
    rw [collapseSpaces] at h
    split at h
    · rcases hm : collapseSpaces rest with _ | ⟨d, r'⟩
      · simp only [hm] at h
        obtain rfl : c = ' ' := by simpa using h
        exact Or.inr rfl
      · simp only [hm] at h
        split at h
        · rcases ih (c := c) (by rw [hm]; exact h) with h' | h'
          · exact Or.inl (List.mem_cons_of_mem _ h')
          · exact Or.inr h'
        · rcases List.mem_cons.mp h with rfl | h'
          · exact Or.inr rfl
          · rcases ih (c := c) (by rw [hm]; exact h') with h'' | h''
            · exact Or.inl (List.mem_cons_of_mem _ h'')
            · exact Or.inr h''
    · rcases List.mem_cons.mp h with rfl | h'
      · exact Or.inl (List.mem_cons_self _ _)
      · rcases ih h' with h'' | h''
        · exact Or.inl (List.mem_cons_of_mem _ h'')
        · exact Or.inr h''

theorem collapseSpaces_tab_free : ∀ (v : List Char), '\t' ∉ collapseSpaces v := by
  intro v
  induction v with
  | nil =>
    simp [collapseSpaces]
  | cons x rest ih =>
    intro h
    rw [collapseSpaces] at h
    split at h
    · rcases hm : collapseSpaces rest with _ | ⟨d, r'⟩
      · simp only [hm] at h
        exact absurd (by simpa using h : ('\t' : Char) = ' ') (by decide)
      · simp only [hm] at h
        split at h
        · exact ih (by rw [hm]; exact h)
        · rcases List.mem_cons.mp h with h' | h'
          · exact absurd h' (by decide)
          · exact ih (by rw [hm]; exact h')
    · rename_i hx
      rcases List.mem_cons.mp h with h' | h'
      · rw [← h'] at hx
        simp [isSpTab] at hx
      · exact ih h'

theorem collapseSpaces_head {v : List Char} {d : Char}
    (h : (collapseSpaces v).head? = some d) : d = ' ' ∨ v.head? = some d := by
  cases v with
  | nil => simp [collapseSpaces] at h
  | cons x rest =>
    rw [collapseSpaces] at h
    split at h
    · rcases hm : collapseSpaces rest with _ | ⟨e, r'⟩
      · simp only [hm] at h
        exact Or.inl (by simpa using h.symm)
      · simp only [hm] at h
        split at h
        · rename_i he
          rw [he] at h
          exact Or.inl (by simpa using h.symm)
        · exact Or.inl (by simpa using h.symm)
    · exact Or.inr (by simpa using h)

theorem collapseSpaces_noSpSp : ∀ (v : List Char),
    hasPair spPair (collapseSpaces v) = false := by
  intro v
  induction v with
  | nil => rfl
  | cons x rest ih =>
    rw [collapseSpaces]
    split
    · rcases hm : collapseSpaces rest with _ | ⟨d, r'⟩
      · simp only [hm]
        rfl
      · rw [hm] at ih
        simp only [hm]
        split
        · exact ih
        · rename_i hd
          refine hasPair_cons_false ?_ ih
          intro y hy
          obtain rfl : d = y := by simpa using hy
          have hdt : d ≠ '\t' := by
            intro hdt
            exact collapseSpaces_tab_free rest (by rw [hm, hdt]; exact List.mem_cons_self _ _)
          have hsp : isSpTab d = false := by
            unfold isSpTab
            simp [hd, hdt]
          simp [spPair, hsp]
    · rename_i hx
      refine hasPair_cons_false ?_ ih
      intro y _
      have hsp : isSpTab x = false := by simpa using hx
      simp [spPair, hsp]

theorem collapseSpaces_hasPair_pres (P : Char → Char → Bool)
    (hP1 : ∀ x, P x ' ' = false) (hP2 : ∀ y, P ' ' y = false) :
    ∀ {v : List Char}, hasPair P v = false →
      hasPair P (collapseSpaces v) = false := by
  intro v
  induction v with
  | nil => intro _; rfl
  | cons x rest ih =>
    intro h
    rw [collapseSpaces]
    split
    · rcases hm : collapseSpaces rest with _ | ⟨d, r'⟩
      · simp only [hm]
        rfl
      · have ih' := ih (hasPair_cons_tail h)
        rw [hm] at ih'
        simp only [hm]
        split
        · exact ih'
        · refine hasPair_cons_false ?_ ih'
          intro y hy
          obtain rfl : d = y := by simpa using hy
          exact hP2 d
    · refine hasPair_cons_false ?_ (ih (hasPair_cons_tail h))
      intro y hy
      have hy' : (collapseSpaces rest).head? = some y := by
        cases hh : (collapseSpaces rest).head? with
        | none =>
          rw [hh] at hy
          simp at hy
        | some v' =>
          rw [hh] at hy
          obtain rfl : v' = y := by simpa using hy
          rfl
      rcases collapseSpaces_head hy' with rfl | hh
      · exact hP1 x
      · refine hasPair_head h y ?_
        cases rest with
        | nil => simp at hh
        | cons z r => simpa using hh
     
theorem collapseSpaces_id : ∀ {v : List Char},
    (∀ c ∈ v, c ≠ '\t') → hasPair spPair v = false → collapseSpaces v = v := by
  intro v
  induction v with
  | nil => intro _ _; rfl
  | cons x rest ih =>
    intro htab hsp
    have hrest : collapseSpaces rest = rest :=
      ih (fun c hc => htab c (List.mem_cons_of_mem _ hc)) (hasPair_cons_tail hsp)
    rw [collapseSpaces]
    split
    · rename_i hx
      have hx' : x = ' ' := by
        unfold isSpTab at hx
        rcases Bool.or_eq_true _ _ |>.mp hx with h' | h'
        · simpa using h'
        · exact absurd (by simpa using h') (htab x (List.mem_cons_self _ _))
      cases rest with
      | nil =>
        have h0 : collapseSpaces ([] : List Char) = [] := rfl
        simp only [h0, hx']
      | cons d r' =>
        rw [hrest] at *
        simp only [hrest]
        have hd : isSpTab d = false := by
          have := hasPair_head hsp d (by simp)
          unfold spPair at this
          rw [hx] at this
          simpa using this
        have hd' : ¬ d = ' ' := by
          intro hde
          rw [hde] at hd
          simp [isSpTab] at hd
        rw [if_neg hd', hx']
    · rw [hrest]

/-! ### Newline-collapse lemmas -/

theorem mem_emitNl {n : Nat} {c : Char} (h : c ∈ emitNl n) : c = '\n' := by
  unfold emitNl at h
  split at h
  · rcases List.mem_cons.mp h with rfl | h'
    · rfl
    · simpa using h'
  · exact List.eq_of_mem_replicate h

theorem emitNl_length_le (n : Nat) : (emitNl n).length ≤ 2 := by
  unfold emitNl
  split
  · simp
  · rename_i h
    simp only [List.length_replicate]
    omega

theorem emitNl_hasPair {P : Char → Char → Bool} (h : P '\n' '\n' = false) (n : Nat) :
    hasPair P (emitNl n) = false := by
  unfold emitNl
  split
  · simp [hasPair, h]
  · exact hasPair_replicate h n

theorem emitNl_shape (n : Nat) :
    emitNl n = [] ∨ emitNl n = ['\n'] ∨ emitNl n = ['\n', '\n'] := by
  unfold emitNl
  split
  · exact Or.inr (Or.inr rfl)
  · rename_i h
    match n, h with
    | 0, _ => exact Or.inl rfl
    | 1, _ => exact Or.inr (Or.inl rfl)
    | 2, _ => exact Or.inr (Or.inr rfl)
    | n + 3, h => exact absurd (by omega) h

theorem mem_collapseNlGo : ∀ {v : List Char} {n : Nat} {c : Char},
    c ∈ collapseNlGo n v → c ∈ v ∨ c = '\n' := by
  intro v
  induction v with
  | nil =>
    intro n c h
    exact Or.inr (mem_emitNl h)
  | cons x rest ih =>
    intro n c h
    rw [collapseNlGo] at h
    split at h
    · rename_i hx
      rcases ih h with h' | h'
      · exact Or.inl (List.mem_cons_of_mem _ h')
      · exact Or.inr h'
    · rcases List.mem_append.mp h with h' | h'
      · exact Or.inr (mem_emitNl h')
      · rcases List.mem_cons.mp h' with rfl | h''
        · exact Or.inl (List.mem_cons_self _ _)
        · rcases ih h'' with h3 | h3
          · exact Or.inl (List.mem_cons_of_mem _ h3)
          · exact Or.inr h3

theorem collapseNlGo_head : ∀ {v : List Char} {n : Nat} {d : Char},
    (collapseNlGo n v).head? = some d → d = '\n' ∨ (n = 0 ∧ v.head? = some d) := by
  intro v
  induction v with
  | nil =>
    intro n d h
    rw [collapseNlGo] at h
    rcases emitNl_shape n with he | he | he <;> rw [he] at h
    · simp at h
    · exact Or.inl (by simpa using h.symm)
    · exact Or.inl (by simpa using h.symm)
  | cons x rest ih =>
    intro n d h
    rw [collapseNlGo] at h
    split at h
    · rcases ih h with h' | h'
      · exact Or.inl h'
      · exact absurd h'.1 (by omega)
    · rcases emitNl_shape n with he | he | he <;> rw [he] at h
      · cases n with
        | zero =>
          exact Or.inr ⟨rfl, by simpa using h⟩
        | succ m =>
          exfalso
          have : emitNl (m + 1) ≠ [] := by
            unfold emitNl
            split
            · simp
            · simp [List.replicate]
          exact this he
      · exact Or.inl (by simpa using h.symm)
      · exact Or.inl (by simpa using h.symm)

theorem collapseNlGo_hasPair_pres (P : Char → Char → Bool)
    (hP1 : ∀ x, P x '\n' = false) (hP2 : ∀ y, P '\n' y = false) :
    ∀ {v : List Char} {n : Nat}, hasPair P v = false →
      hasPair P (collapseNlGo n v) = false := by
  intro v
  induction v with
  | nil =>
    intro n _
    rw [collapseNlGo]
    exact emitNl_hasPair (hP1 '\n') n
  | cons x rest ih =>
    intro n h
    rw [collapseNlGo]
    split
    · exact ih (hasPair_cons_tail h)
    · refine hasPair_append_false (emitNl_hasPair (hP1 '\n') n) ?_ ?_
      · refine hasPair_cons_false ?_ (ih (hasPair_cons_tail h))
        intro y hy
        have hy' : (collapseNlGo 0 rest).head? = some y := by
          cases hh : (collapseNlGo 0 rest).head? with
          | none =>
            rw [hh] at hy
            simp at hy
          | some v' =>
            rw [hh] at hy
            obtain rfl : v' = y := by simpa using hy
            rfl
        rcases collapseNlGo_head hy' with rfl | ⟨_, hh⟩
        · exact hP1 x
        · refine hasPair_head h y ?_
          cases rest with
          | nil => simp at hh
          | cons z r => simpa using hh
      · intro a ha y _
        have : a = '\n' := mem_emitNl (List.mem_of_mem_getLast? ha)
        rw [this]
        exact hP2 y

/-! ### Triple-newline scanner -/

def hasNl3 : List Char → Bool
  | x :: y :: z :: rest => (x == '\n' && y == '\n' && z == '\n') || hasNl3 (y :: z :: rest)
  | _ => false

theorem hasNl3_cons_tail {x : Char} {l : List Char}
    (h : hasNl3 (x :: l) = false) : hasNl3 l = false := by
  match l with
  | [] => rfl
  | [y] => rfl
  | y :: z :: rest =>
    simp only [hasNl3, Bool.or_eq_false_iff] at h
    exact h.2

theorem hasNl3_append_right : ∀ {l₁ l₂ : List Char},
    hasNl3 (l₁ ++ l₂) = false → hasNl3 l₂ = false := by
  intro l₁
  induction l₁ with
  | nil => exact fun h => h
  | cons x l₁ ih => exact fun h => ih (hasNl3_cons_tail h)

theorem hasNl3_append_left (l₂ : List Char) : ∀ {l₁ : List Char},
    hasNl3 (l₁ ++ l₂) = false → hasNl3 l₁ = false := by
  intro l₁
  induction l₁ with
  | nil => intro _; rfl
  | cons x l₁ ih =>
    intro h
    match l₁, h, ih with
    | [], _, _ => rfl
    | [y], _, _ => rfl
    | y :: z :: l₁', h, ih =>
      simp only [List.cons_append, hasNl3, Bool.or_eq_false_iff] at h ⊢
      exact ⟨h.1, by simpa using ih (by simpa using h.2)⟩

theorem hasNl3_cons_of_ne {c : Char} (hc : ¬ c = '\n') (R : List Char) :
    hasNl3 (c :: R) = hasNl3 R := by
  match R with
  | [] => rfl
  | [y] => rfl
  | y :: z :: rest =>
    simp only [hasNl3]
    have : (c == '\n') = false := by simpa using hc
    simp [this]

theorem hasNl3_cons2_of_ne (a : Char) {c : Char} (hc : ¬ c = '\n') (R : List Char) :
    hasNl3 (a :: c :: R) = hasNl3 (c :: R) := by
  match R with
  | [] => rfl
  | z :: rest =>
    simp only [hasNl3]
    have : (c == '\n') = false := by simpa using hc
    simp [this, hasNl3]

theorem hasNl3_nl_nl_cons {x : Char} (hx : ¬ x = '\n') (R : List Char) :
    hasNl3 ('\n' :: '\n' :: x :: R) = hasNl3 (x :: R) := by
  have hb : (x == '\n') = false := by simpa using hx
  show ((('\n' : Char) == '\n' && ('\n' : Char) == '\n' && x == '\n')
      || hasNl3 ('\n' :: x :: R)) = hasNl3 (x :: R)
  rw [hasNl3_cons2_of_ne '\n' hx]
  simp [hb]

theorem collapseNlGo_noNl3 : ∀ (v : List Char) (n : Nat),
    hasNl3 (collapseNlGo n v) = false := by
  intro v
  induction v with
  | nil =>
    intro n
    rw [collapseNlGo]
    rcases emitNl_shape n with he | he | he <;> rw [he] <;> rfl
  | cons x rest ih =>
    intro n
    rw [collapseNlGo]
    split
    · exact ih (n + 1)
    · rename_i hx
      rcases emitNl_shape n with he | he | he <;> rw [he]
      · rw [List.nil_append, hasNl3_cons_of_ne hx]
        exact ih 0
      · rw [List.cons_append, List.nil_append,
          hasNl3_cons2_of_ne '\n' hx, hasNl3_cons_of_ne hx]
        exact ih 0
      · rw [List.cons_append, List.cons_append, List.nil_append,
          hasNl3_nl_nl_cons hx, hasNl3_cons_of_ne hx]
        exact ih 0

theorem collapseNlGo_id : ∀ {v : List Char} {n : Nat}, n ≤ 2 →
    hasNl3 (List.replicate n '\n' ++ v) = false →
    collapseNlGo n v = List.replicate n '\n' ++ v := by
  intro v
  induction v with
  | nil =>
    intro n hn _
    rw [collapseNlGo, emitNl, if_neg (by omega), List.append_nil]
  | cons c rest ih =>
    intro n hn h
    rw [collapseNlGo]
    split
    · rename_i hc
      subst hc
      have hrepl : List.replicate n '\n' ++ '\n' :: rest
          = List.replicate (n + 1) '\n' ++ rest := by
        rw [List.replicate_succ']
        simp
      rw [hrepl] at h ⊢
      have hn1 : n + 1 ≤ 2 := by
        by_contra hcon
        have hn2 : n = 2 := by omega
        subst hn2
        simp [List.replicate_succ, hasNl3] at h
      exact ih hn1 h
    · rw [emitNl, if_neg (by omega)]
      congr 2
      have h0 : hasNl3 rest = false :=
        hasNl3_cons_tail (hasNl3_append_right h)
      simpa using ih (n := 0) (by omega) (by simpa using h0)

/-- `re.sub(r"\n\x7b3,\x7d", "\n\n", t)` leaves a string with no run of
three newlines unchanged. -/
theorem collapseNewlines_id {v : List Char} (h : hasNl3 v = false) :
    collapseNewlines v = v := by
  rw [collapseNewlines]
  simpa using collapseNlGo_id (n := 0) (by omega) (by simpa using h)

/-! ### Strip idempotence and scanner preservation -/

theorem dTW_exists_suffix : ∀ (u : List Char), ∃ t, dropTrailingWs u ++ t = u := by
  intro u
  induction u with
  | nil => exact ⟨[], rfl⟩
  | cons c rest ih =>
    rw [dropTrailingWs]
    split
    · exact ⟨c :: rest, rfl⟩
    · obtain ⟨t, ht⟩ := ih
      exact ⟨t, by simp [ht]⟩

theorem dTW_idem : ∀ (u : List Char),
    dropTrailingWs (dropTrailingWs u) = dropTrailingWs u := by
  intro u
  induction u with
  | nil => rfl
  | cons c rest ih =>
    rw [dropTrailingWs]
    split
    · rfl
    · rename_i hcond
      rw [dropTrailingWs, ih]
      exact if_neg hcond

theorem dropWhile_head_not {p : Char → Bool} : ∀ {l : List Char} {d : Char},
    (l.dropWhile p).head? = some d → p d = false := by
  intro l
  induction l with
  | nil =>
    intro d h
    simp at h
  | cons c rest ih =>
    intro d h
    rw [List.dropWhile_cons] at h
    split at h
    · exact ih h
    · rename_i hc
      obtain rfl : c = d := by simpa using h
      simpa using hc

theorem dropWhile_eq_self_of_head {p : Char → Bool} {l : List Char}
    (h : ∀ d ∈ l.head?, p d = false) : l.dropWhile p = l := by
  cases l with
  | nil => rfl
  | cons c rest =>
    rw [List.dropWhile_cons, if_neg]
    intro hc
    have := h c (by simp)
    rw [this] at hc
    exact Bool.false_ne_true (by simpa using hc)

theorem strip_head_not_ws {w : List Char} {d : Char}
    (h : (strip w).head? = some d) : isWs d = false := by
  rw [strip] at h
  obtain ⟨t, ht⟩ := dTW_exists_suffix (w.dropWhile isWs)
  have hdw : (w.dropWhile isWs).head? = some d := by
    rw [← ht]
    cases hh : dropTrailingWs (w.dropWhile isWs) with
    | nil =>
      rw [hh] at h
      simp at h
    | cons e r =>
      rw [hh] at h
      obtain rfl : e = d := by simpa using h
      simp
  exact dropWhile_head_not hdw

/-- Python `str.strip()` is idempotent. -/
theorem strip_strip (w : List Char) : strip (strip w) = strip w := by
  conv_lhs => rw [strip]
  rw [dropWhile_eq_self_of_head (fun d hd => strip_head_not_ws hd), strip, dTW_idem]

theorem hasPair_strip {P : Char → Char → Bool} {w : List Char}
    (h : hasPair P w = false) : hasPair P (strip w) = false := by
  rw [strip]
  obtain ⟨t, ht⟩ := dTW_exists_suffix (w.dropWhile isWs)
  refine @hasPair_append_left _ _ t ?_
  rw [ht]
  have hw : w.takeWhile isWs ++ w.dropWhile isWs = w := List.takeWhile_append_dropWhile isWs w
  refine @hasPair_append_right _ (w.takeWhile isWs) _ ?_
  rw [hw]
  exact h

theorem hasNl3_strip {w : List Char}
    (h : hasNl3 w = false) : hasNl3 (strip w) = false := by
  rw [strip]
  obtain ⟨t, ht⟩ := dTW_exists_suffix (w.dropWhile isWs)
  refine hasNl3_append_left t ?_
  rw [ht]
  have hw : w.takeWhile isWs ++ w.dropWhile isWs = w := List.takeWhile_append_dropWhile isWs w
  refine @hasNl3_append_right (w.takeWhile isWs) _ ?_
  rw [hw]
  exact h

/-! ### Invariants of the normalized output -/

theorem spPair_nl_right (x : Char) : spPair x '\n' = false := by
  rw [spPair, (by decide : isSpTab '\n' = false), Bool.and_false]

theorem spPair_nl_left (y : Char) : spPair '\n' y = false := by
  rw [spPair, (by decide : isSpTab '\n' = false), Bool.false_and]

theorem agPair_sp_right (x : Char) : agPair x ' ' = false := by
  rw [agPair, (by decide : ((' ' : Char) == Char.ofNat 0x300) = false), Bool.and_false]

theorem agPair_sp_left (y : Char) : agPair ' ' y = false := by
  rw [agPair, (by decide : ((' ' : Char) == 'a') = false), Bool.false_and]

theorem agPair_nl_right (x : Char) : agPair x '\n' = false := by
  rw [agPair, (by decide : (('\n' : Char) == Char.ofNat 0x300) = false), Bool.and_false]

theorem agPair_nl_left (y : Char) : agPair '\n' y = false := by
  rw [agPair, (by decide : (('\n' : Char) == 'a') = false), Bool.false_and]

/-- Every character of a normalized string passed through the zero-width
filter (or is the `' '` / `'\n'` introduced by the whitespace collapses),
so it is stable under the smart-punctuation replacement, under the
restricted NFKC decomposition table, and is not zero-width. -/
theorem sanitize_text_mem_stable {s : List Char} {c : Char} (h : c ∈ sanitize_text s) :
    replChar c = [c] ∧ nfkcDecompChar c = [c] ∧ isZeroWidth c = false := by
  rw [sanitize_text] at h
  have h1 := mem_strip h
  rw [collapseNewlines] at h1
  rcases mem_collapseNlGo h1 with h2 | rfl
  · rcases mem_collapseSpaces h2 with h3 | rfl
    · rw [removeZeroWidth] at h3
      obtain ⟨hmem, hzw⟩ := List.mem_filter.mp h3
      rw [replSmart] at hmem
      obtain ⟨d, _, hcd⟩ := List.mem_flatMap.mp hmem
      obtain ⟨hr, hd⟩ := replChar_stable hcd
      exact ⟨hr, hd, by simpa using hzw⟩
    · exact ⟨by decide, by decide, by decide⟩
  · exact ⟨by decide, by decide, by decide⟩

theorem sanitize_text_tab_free {s : List Char} {c : Char} (h : c ∈ sanitize_text s) :
    c ≠ '\t' := by
  intro hc
  subst hc
  rw [sanitize_text] at h
  have h1 := mem_strip h
  rw [collapseNewlines] at h1
  rcases mem_collapseNlGo h1 with h2 | hc
  · exact collapseSpaces_tab_free _ h2
  · exact absurd hc (by decide)

theorem sanitize_text_noSpSp (s : List Char) :
    hasPair spPair (sanitize_text s) = false := by
  rw [sanitize_text, collapseNewlines]
  exact hasPair_strip (collapseNlGo_hasPair_pres spPair spPair_nl_right spPair_nl_left
    (collapseSpaces_noSpSp _))

theorem sanitize_text_noNl3 (s : List Char) : hasNl3 (sanitize_text s) = false := by
  rw [sanitize_text, collapseNewlines]
  exact hasNl3_strip (collapseNlGo_noNl3 _ 0)

theorem sanitize_text_strip (s : List Char) :
    strip (sanitize_text s) = sanitize_text s := by
  rw [sanitize_text]
  exact strip_strip _

/-- For an input free of zero-width characters the zero-width filter is
the identity, so the no-composable-pair invariant established by the
NFKC composition pass survives to the normalized output.  (An input
*with* zero-width characters can defeat this: removing a zero-width
character can make a letter and a combining accent adjacent.) -/
theorem sanitize_text_noAG {s : List Char} (hzw : ∀ c ∈ s, isZeroWidth c = false) :
    hasPair agPair (sanitize_text s) = false := by
  have hnf : ∀ c ∈ nfkc s, isZeroWidth c = false := by
    intro c hc
    rcases mem_nfkc hc with h | rfl | rfl
    · exact hzw c h
    · decide
    · decide
  have hrs : ∀ c ∈ replSmart (nfkc s), isZeroWidth c = false := by
    intro c hc
    rw [replSmart] at hc
    obtain ⟨d, hd, hcd⟩ := List.mem_flatMap.mp hc
    exact replChar_nonzw hcd (hnf d hd)
  have hrm : removeZeroWidth (replSmart (nfkc s)) = replSmart (nfkc s) := by
    rw [removeZeroWidth]
    refine List.filter_eq_self.mpr ?_
    intro c hc
    rw [hrs c hc]
    rfl
  have h1 : hasPair agPair (nfkc s) = false := by
    rw [nfkc]
    exact nfkcCompose_noAG _
  rw [sanitize_text, collapseNewlines, hrm]
  exact hasPair_strip (collapseNlGo_hasPair_pres agPair agPair_nl_right agPair_nl_left
    (collapseSpaces_hasPair_pres agPair agPair_sp_right agPair_sp_left
      (replSmart_hasAG h1)))

/-- C9 counterexample: `_sanitize_text` is not idempotent.  On the input
`a` + `U+200D ZERO WIDTH JOINER` + `U+0300 COMBINING GRAVE ACCENT`, the
first pass removes the zero-width joiner, leaving `a` adjacent to the
combining accent; the second pass's NFKC step then composes the pair to
`U+00E0`, changing the string. -/
theorem C9_counterexample :
    sanitize_text (sanitize_text ['a', Char.ofNat 0x200D, Char.ofNat 0x300]) ≠
      sanitize_text ['a', Char.ofNat 0x200D, Char.ofNat 0x300] := by
  decide

/-- C9 amended: normalization is idempotent for every input containing
no zero-width character (`U+200B`-`U+200D`, `U+FEFF`): for such `t`,
`_sanitize_text(_sanitize_text(t)) = _sanitize_text(t)`.  Zero-width
removal can create a newly adjacent composable pair for NFKC, which is
the one way a second pass can differ. -/
theorem C9_amended {s : List Char} (hzw : ∀ c ∈ s, isZeroWidth c = false) :
    sanitize_text (sanitize_text s) = sanitize_text s := by
  have hstable := fun c hc => sanitize_text_mem_stable (s := s) (c := c) hc
  have hdecomp : (sanitize_text s).flatMap nfkcDecompChar = sanitize_text s :=
    flatMap_id_of (fun c hc => (hstable c hc).2.1)
  have hnfkc : nfkc (sanitize_text s) = sanitize_text s := by
    rw [nfkc, hdecomp]
    exact nfkcCompose_id_of_noAG (sanitize_text_noAG hzw)
  have hrepl : replSmart (sanitize_text s) = sanitize_text s := by
    rw [replSmart]
    exact flatMap_id_of (fun c hc => (hstable c hc).1)
  have hrm : removeZeroWidth (sanitize_text s) = sanitize_text s := by
    rw [removeZeroWidth]
    refine List.filter_eq_self.mpr ?_
    intro c hc
    rw [(hstable c hc).2.2]
    rfl
  have hsp : collapseSpaces (sanitize_text s) = sanitize_text s :=
    collapseSpaces_id (fun c hc => sanitize_text_tab_free hc) (sanitize_text_noSpSp s)
  have hnl : collapseNewlines (sanitize_text s) = sanitize_text s :=
    collapseNewlines_id (sanitize_text_noNl3 s)
  conv_lhs => rw [sanitize_text]
  rw [hnfkc, hrepl, hrm, hsp, hnl]
  exact sanitize_text_strip s

/-- Witness for the amended C9 on a concrete zero-width-free input. -/
theorem C9_amended_witness :
    (∀ c ∈ ['H', 'i', '.', ' ', ' ', 'B', 'y', 'e', Char.ofNat 0x2026, '\n', '\n', '\n'],
      isZeroWidth c = false) ∧
    sanitize_text (sanitize_text
      ['H', 'i', '.', ' ', ' ', 'B', 'y', 'e', Char.ofNat 0x2026, '\n', '\n', '\n']) =
    sanitize_text
      ['H', 'i', '.', ' ', ' ', 'B', 'y', 'e', Char.ofNat 0x2026, '\n', '\n', '\n'] :=
  ⟨by decide, C9_amended (by decide)⟩

end Piper

